import Mathlib

/-!
Verification of the article-extraction engine in
`preprocessing/relief-society-mag/article-extraction/extract_vol36_40.py`.

Texts are embedded as `List Char`.  Python regular expressions that the
script uses are embedded as hand-written scanners that reproduce the
leftmost-match / greedy semantics of the concrete patterns appearing in
the source (each embedding is documented next to its definition).
-/

namespace RSExtract

/-- Python `\s` on ASCII text: space, tab, newline, carriage return,
vertical tab, form feed. -/
def isWs (c : Char) : Bool :=
  c == ' ' || c == '\t' || c == '\n' || c == '\r' || c == '\x0b' || c == '\x0c'

/-- Python `\w` on ASCII text: letters, digits, underscore. -/
def isWordChar (c : Char) : Bool :=
  c.isAlphanum || c == '_'

/-- Case-insensitive character comparison (Python `re.IGNORECASE` on ASCII). -/
def charCI (a b : Char) : Bool :=
  a.toLower == b.toLower

/-- Python `str.strip()`: drop whitespace from both ends. -/
def trim (l : List Char) : List Char :=
  (l.dropWhile (fun c => isWs c)).reverse.dropWhile (fun c => isWs c) |>.reverse

/-- Python slice `text[s:e]` (with the usual clamping). -/
def slice (l : List Char) (s e : Nat) : List Char :=
  (l.drop s).take (e - s)

/-- Case-insensitive literal prefix test: does `pat` occur at the head of `l`? -/
def litCI : List Char → List Char → Bool
  | [], _ => true
  | _ :: _, [] => false
  | p :: ps, c :: cs => charCI p c && litCI ps cs

/-- Case-sensitive literal prefix test. -/
def litCS : List Char → List Char → Bool
  | [], _ => true
  | _ :: _, [] => false
  | p :: ps, c :: cs => (p == c) && litCS ps cs

/-- First index at which a case-sensitive literal occurs (Python `re.search`
of an escaped literal without flags; also `str.find`). -/
def findLitCS (pat : List Char) : List Char → Option Nat
  | [] => if litCS pat [] then some 0 else none
  | c :: cs =>
      if litCS pat (c :: cs) then some 0
      else (findLitCS pat cs).map (· + 1)

/-- First index at which a case-insensitive literal occurs. -/
def findLitCI (pat : List Char) : List Char → Option Nat
  | [] => if litCI pat [] then some 0 else none
  | c :: cs =>
      if litCI pat (c :: cs) then some 0
      else (findLitCI pat cs).map (· + 1)

/-!
## `sanitize_filename` (source lines 37-51)

```python
def sanitize_filename(s: str, max_len: int = 80) -> str:
    s = s.strip()
    s = re.sub(r'[<>:"/\\|?*]', '', s)
    s = re.sub(r'[\s\-,;.!\'()]+', '_', s)
    s = re.sub(r'_+', '_', s)
    s = s.strip('_')
    if len(s) > max_len:
        s = s[:max_len].rstrip('_')
    return s
```
-/

/-- The reserved character class `[<>:"/\\|?*]`. -/
def isReserved (c : Char) : Bool :=
  c == '<' || c == '>' || c == ':' || c == '"' || c == '/' ||
  c == '\\' || c == '|' || c == '?' || c == '*'

/-- The character class `[\s\-,;.!\'()]` replaced by underscores. -/
def isSpecial (c : Char) : Bool :=
  isWs c || c == '-' || c == ',' || c == ';' || c == '.' || c == '!' ||
  c == '\x27' || c == '(' || c == ')'

/-- The pass `re.sub(r'[\s\-,;.!\'()]+', '_', s)` as a one-pass state machine: the
flag records whether the previous character belonged to a special run, so
each maximal run of special characters becomes a single underscore. -/
def replSpecAux : Bool → List Char → List Char
  | _, [] => []
  | inRun, c :: rest =>
      if isSpecial c then
        if inRun then replSpecAux true rest
        else '_' :: replSpecAux true rest
      else c :: replSpecAux false rest

def replaceSpecialRuns (l : List Char) : List Char :=
  replSpecAux false l

/-- The pass `re.sub(r'_+', '_', s)` as a one-pass state machine: the flag records
whether the previous character was an underscore, so each maximal run of
underscores collapses to a single one. -/
def collapseUAux : Bool → List Char → List Char
  | _, [] => []
  | prevU, c :: rest =>
      if c = '_' then
        if prevU then collapseUAux true rest
        else '_' :: collapseUAux true rest
      else c :: collapseUAux false rest

def collapseUnderscores (l : List Char) : List Char :=
  collapseUAux false l

/-- Python `str.rstrip('_')`, written without `List.reverse` so that
induction goes through the head. -/
def rstripU : List Char → List Char
  | [] => []
  | c :: rest =>
      match rstripU rest with
      | [] => if c = '_' then [] else [c]
      | d :: ds => c :: d :: ds

/-- Python `str.strip('_')`. -/
def stripU (l : List Char) : List Char :=
  rstripU (l.dropWhile (fun c => c = '_'))

/-- Function `sanitize_filename` from the source (the `max_len` parameter defaults
to 80 at every call site). -/
def sanitizeFilename (s : List Char) (maxLen : Nat := 80) : List Char :=
  let s1 := trim s
  let s2 := s1.filter (fun c => !isReserved c)
  let s3 := replaceSpecialRuns s2
  let s4 := collapseUnderscores s3
  let s5 := stripU s4
  if s5.length > maxLen then rstripU (s5.take maxLen) else s5

/-- Does the list contain two adjacent underscores? -/
def hasDoubleU : List Char → Bool
  | [] => false
  | [_] => false
  | a :: b :: rest => (a = '_' && b = '_') || hasDoubleU (b :: rest)

/-- Last element is not an underscore (vacuously true for `[]`). -/
def lastNotU (l : List Char) : Bool :=
  match l.getLast? with
  | some c => !(c = '_')
  | none => true

lemma hasDoubleU_tail {a : Char} {t : List Char}
    (h : hasDoubleU (a :: t) = false) : hasDoubleU t = false := by
  cases t with
  | nil => rfl
  | cons b ts => simp [hasDoubleU] at h ⊢; tauto

lemma rstripU_eq (c : Char) (rest : List Char) :
    rstripU (c :: rest) = [] ∨ rstripU (c :: rest) = c :: rstripU rest := by
  simp only [rstripU]
  cases h : rstripU rest with
  | nil =>
      by_cases hc : c = '_' <;> simp [hc]
  | cons d ds => simp

lemma mem_rstripU {c : Char} {l : List Char} (h : c ∈ rstripU l) : c ∈ l := by
  induction l with
  | nil => simp [rstripU] at h
  | cons a rest ih =>
      rcases rstripU_eq a rest with he | he
      · rw [he] at h; simp at h
      · rw [he] at h
        rcases List.mem_cons.mp h with h1 | h1
        · simp [h1]
        · exact List.mem_cons_of_mem _ (ih h1)

lemma rstripU_length_le (l : List Char) : (rstripU l).length ≤ l.length := by
  induction l with
  | nil => simp [rstripU]
  | cons a rest ih =>
      rcases rstripU_eq a rest with he | he
      · simp [he]
      · rw [he]; simpa using ih

lemma lastNotU_rstripU (l : List Char) : lastNotU (rstripU l) = true := by
  induction l with
  | nil => rfl
  | cons a rest ih =>
      simp only [rstripU]
      cases h : rstripU rest with
      | nil =>
          by_cases hc : a = '_'
          · simp [hc, lastNotU]
          · simp [hc, lastNotU, hc]
      | cons d ds =>
          rw [h] at ih
          simpa [lastNotU, List.getLast?_cons_cons] using ih

lemma hasDoubleU_cons {a : Char} {l : List Char} (h1 : hasDoubleU l = false)
    (h2 : ∀ b, l.head? = some b → (a = '_' && b = '_') = false) :
    hasDoubleU (a :: l) = false := by
  cases l with
  | nil => rfl
  | cons b t =>
      simp only [hasDoubleU, Bool.or_eq_false_iff]
      exact ⟨h2 b rfl, h1⟩

lemma hasDoubleU_head {a b : Char} {l : List Char}
    (h : hasDoubleU (a :: l) = false) (hb : l.head? = some b) :
    (a = '_' && b = '_') = false := by
  cases l with
  | nil => cases hb
  | cons x t =>
      have hx : x = b := by simpa using hb
      subst hx
      simp only [hasDoubleU, Bool.or_eq_false_iff] at h
      exact h.1

lemma rstripU_head? {l : List Char} {b : Char}
    (h : (rstripU l).head? = some b) : l.head? = some b := by
  cases l with
  | nil => simp [rstripU] at h
  | cons x xs =>
      rcases rstripU_eq x xs with he | he <;> rw [he] at h
      · cases h
      · simpa using h

lemma hasDoubleU_rstripU {l : List Char} (h : hasDoubleU l = false) :
    hasDoubleU (rstripU l) = false := by
  induction l with
  | nil => rfl
  | cons a rest ih =>
      rcases rstripU_eq a rest with he | he
      · simp [he, hasDoubleU]
      · rw [he]
        refine hasDoubleU_cons (ih (hasDoubleU_tail h)) ?_
        intro b hb
        exact hasDoubleU_head h (rstripU_head? hb)

lemma hasDoubleU_dropWhile {p : Char → Bool} {l : List Char}
    (h : hasDoubleU l = false) : hasDoubleU (l.dropWhile p) = false := by
  induction l with
  | nil => simpa using h
  | cons a rest ih =>
      rw [List.dropWhile_cons]
      by_cases hp : p a = true
      · simp [hp]; exact ih (hasDoubleU_tail h)
      · simp [hp]; exact h

lemma hasDoubleU_take {l : List Char} (h : hasDoubleU l = false) (n : Nat) :
    hasDoubleU (l.take n) = false := by
  induction l generalizing n with
  | nil => simp [hasDoubleU]
  | cons a rest ih =>
      cases n with
      | zero => simp [hasDoubleU]
      | succ m =>
          rw [List.take_succ_cons]
          cases rest with
          | nil => simp [List.take_nil, hasDoubleU]
          | cons b ts =>
              cases m with
              | zero => simp [hasDoubleU]
              | succ k =>
                  rw [List.take_succ_cons]
                  have h1 : (a = '_' && b = '_') = false := by
                    simp [hasDoubleU] at h
                    rcases h with ⟨h1, _⟩
                    by_cases ha : a = '_' <;> by_cases hb : b = '_' <;>
                      simp [ha, hb] at h1 ⊢
                  have h2 := ih (hasDoubleU_tail h) (k + 1)
                  rw [List.take_succ_cons] at h2
                  simp only [hasDoubleU, Bool.or_eq_false_iff]
                  exact ⟨by simpa using h1, h2⟩

lemma head_collapseUAux_true_ne {rest : List Char} {b : Char}
    (h : (collapseUAux true rest).head? = some b) : ¬ b = '_' := by
  induction rest with
  | nil => simp [collapseUAux] at h
  | cons c r ih =>
      rw [collapseUAux] at h
      by_cases hc : c = '_'
      · rw [if_pos hc, if_pos rfl] at h
        exact ih h
      · rw [if_neg hc] at h
        have : c = b := by simpa using h
        subst this
        exact hc

lemma hasDoubleU_collapseUAux (st : Bool) (l : List Char) :
    hasDoubleU (collapseUAux st l) = false := by
  induction l generalizing st with
  | nil => cases st <;> rfl
  | cons c rest ih =>
      rw [collapseUAux]
      by_cases hc : c = '_'
      · rw [if_pos hc]
        cases st with
        | true => rw [if_pos rfl]; exact ih true
        | false =>
            rw [if_neg (by simp)]
            refine hasDoubleU_cons (ih true) ?_
            intro b hb
            simp [head_collapseUAux_true_ne hb]
      · rw [if_neg hc]
        refine hasDoubleU_cons (ih false) ?_
        intro b _
        simp [hc]

lemma hasDoubleU_collapseUnderscores (l : List Char) :
    hasDoubleU (collapseUnderscores l) = false :=
  hasDoubleU_collapseUAux false l

lemma mem_collapseUAux {c : Char} {st : Bool} {l : List Char}
    (h : c ∈ collapseUAux st l) : c ∈ l := by
  induction l generalizing st with
  | nil => simp [collapseUAux] at h
  | cons a rest ih =>
      rw [collapseUAux] at h
      by_cases ha : a = '_'
      · rw [if_pos ha] at h
        cases st with
        | true => rw [if_pos rfl] at h; exact List.mem_cons_of_mem _ (ih h)
        | false =>
            rw [if_neg (by simp)] at h
            rcases List.mem_cons.mp h with h1 | h1
            · simp [h1, ha]
            · exact List.mem_cons_of_mem _ (ih h1)
      · rw [if_neg ha] at h
        rcases List.mem_cons.mp h with h1 | h1
        · simp [h1]
        · exact List.mem_cons_of_mem _ (ih h1)

lemma mem_collapseUnderscores {c : Char} {l : List Char}
    (h : c ∈ collapseUnderscores l) : c ∈ l :=
  mem_collapseUAux h

lemma mem_replSpecAux {c : Char} {st : Bool} {l : List Char}
    (h : c ∈ replSpecAux st l) : c = '_' ∨ c ∈ l := by
  induction l generalizing st with
  | nil => simp [replSpecAux] at h
  | cons a rest ih =>
      rw [replSpecAux] at h
      by_cases ha : isSpecial a = true
      · rw [if_pos ha] at h
        cases st with
        | true =>
            rw [if_pos rfl] at h
            rcases ih h with h1 | h1
            · exact Or.inl h1
            · exact Or.inr (List.mem_cons_of_mem _ h1)
        | false =>
            rw [if_neg (by simp)] at h
            rcases List.mem_cons.mp h with h1 | h1
            · exact Or.inl h1
            · rcases ih h1 with h2 | h2
              · exact Or.inl h2
              · exact Or.inr (List.mem_cons_of_mem _ h2)
      · rw [if_neg ha] at h
        rcases List.mem_cons.mp h with h1 | h1
        · exact Or.inr (by simp [h1])
        · rcases ih h1 with h2 | h2
          · exact Or.inl h2
          · exact Or.inr (List.mem_cons_of_mem _ h2)

lemma mem_replaceSpecialRuns {c : Char} {l : List Char}
    (h : c ∈ replaceSpecialRuns l) : c = '_' ∨ c ∈ l :=
  mem_replSpecAux h

lemma mem_sanitizeFilename_not_reserved {c : Char} {s : List Char} {maxLen : Nat}
    (h : c ∈ sanitizeFilename s maxLen) : isReserved c = false := by
  have step : c ∈ stripU (collapseUnderscores (replaceSpecialRuns
      ((trim s).filter (fun c => !isReserved c)))) → isReserved c = false := by
    intro hc
    have h4 := (List.dropWhile_sublist _).subset (mem_rstripU hc)
    have h5 := mem_collapseUnderscores h4
    rcases mem_replaceSpecialRuns h5 with h6 | h6
    · simp [h6, isReserved]
    have := (List.mem_filter.mp h6).2
    simpa using this
  rw [sanitizeFilename] at h
  by_cases hlen : (stripU (collapseUnderscores (replaceSpecialRuns
      ((trim s).filter (fun c => !isReserved c))))).length > maxLen
  · simp only [hlen, if_true] at h
    exact step (List.mem_of_mem_take (mem_rstripU h))
  · simp only [hlen, if_false] at h
    exact step h

/-- C8: the sanitized filename never contains a reserved character, never
contains a run of two or more underscores, never ends in an underscore,
and never exceeds the configured maximum length. -/
theorem sanitizeFilename_safe (s : List Char) (maxLen : Nat) :
    ((sanitizeFilename s maxLen).all (fun c => !isReserved c)) = true ∧
    hasDoubleU (sanitizeFilename s maxLen) = false ∧
    lastNotU (sanitizeFilename s maxLen) = true ∧
    (sanitizeFilename s maxLen).length ≤ maxLen := by
  refine ⟨?_, ?_, ?_, ?_⟩
  · rw [List.all_eq_true]
    intro c hc
    simpa using mem_sanitizeFilename_not_reserved hc
  · rw [sanitizeFilename]
    have base : hasDoubleU (stripU (collapseUnderscores (replaceSpecialRuns
        ((trim s).filter (fun c => !isReserved c))))) = false :=
      hasDoubleU_rstripU (hasDoubleU_dropWhile (hasDoubleU_collapseUnderscores _))
    split
    · exact hasDoubleU_rstripU (hasDoubleU_take base maxLen)
    · exact base
  · rw [sanitizeFilename]
    split
    · exact lastNotU_rstripU _
    · exact lastNotU_rstripU _
  · rw [sanitizeFilename]
    split
    · calc (rstripU ((stripU _).take maxLen)).length
          ≤ ((stripU (collapseUnderscores (replaceSpecialRuns
              ((trim s).filter (fun c => !isReserved c))))).take maxLen).length :=
            rstripU_length_le _
        _ ≤ maxLen := by simp
    · omega

/-!
## `split_front_matter` (source lines 782-797)

```python
def split_front_matter(text):
    marker = re.search(r'MAGAZINE CIRCULATION[^\n]*', text)
    if marker:
        split_pos = marker.end()
        return text[:split_pos], text[split_pos:]
    else:
        print("  WARNING: ...")
        return "", text
```

The pattern is a case-sensitive literal followed by greedy `[^\n]*`, so the
match ends at the end of the line containing the first literal occurrence.
-/

def fmMarker : List Char := "MAGAZINE CIRCULATION".toList

def splitFrontMatter (text : List Char) : List Char × List Char :=
  match findLitCS fmMarker text with
  | some i =>
      let e := i + fmMarker.length +
        ((text.drop (i + fmMarker.length)).takeWhile (fun c => !(c = '\n'))).length
      (text.take e, text.drop e)
  | none => ([], text)

/-- C9: when the front-matter marker does not occur in the text,
`split_front_matter` returns empty front matter and the whole text as the
body (the degraded mode; the Python function returns normally, raising
no exception). -/
theorem splitFrontMatter_fallback (text : List Char)
    (h : findLitCS fmMarker text = none) :
    splitFrontMatter text = ([], text) := by
  rw [splitFrontMatter, h]

/-- Witness for C9 at a concrete marker-free text. -/
theorem splitFrontMatter_fallback_witness :
    findLitCS fmMarker ("hello body".toList) = none ∧
    splitFrontMatter ("hello body".toList) = ([], "hello body".toList) :=
  ⟨by decide, splitFrontMatter_fallback _ (by decide)⟩

/-- C10: the two halves returned by `split_front_matter` always concatenate
back to the original text, in both the marker-found branch and the
fallback branch. -/
theorem splitFrontMatter_concat (text : List Char) :
    (splitFrontMatter text).1 ++ (splitFrontMatter text).2 = text := by
  rw [splitFrontMatter]
  cases findLitCS fmMarker text with
  | none => simp
  | some i => simp [List.take_append_drop]

/-!
## TOC entries and `_boundaries_from_found` (source lines 826-834)

```python
def _boundaries_from_found(found, body_end):
    found_sorted = sorted(found, key=lambda x: x[0])
    boundaries = []
    for i, (start, entry) in enumerate(found_sorted):
        end = found_sorted[i + 1][0] if i + 1 < len(found_sorted) else body_end
        boundaries.append((start, end, entry))
    return boundaries
```

Python `sorted` with a key is stable; `insertByPos` places an element
before all previously inserted (i.e. originally later) elements with a
greater-or-equal key, which reproduces stability under `foldr`.
-/

structure TocEntry where
  title : List Char
  author : Option (List Char)
  etype : List Char
deriving DecidableEq

def insertByPos (x : Nat × TocEntry) : List (Nat × TocEntry) → List (Nat × TocEntry)
  | [] => [x]
  | y :: ys => if x.1 ≤ y.1 then x :: y :: ys else y :: insertByPos x ys

def sortFound (l : List (Nat × TocEntry)) : List (Nat × TocEntry) :=
  l.foldr insertByPos []

def pairUpBounds : List (Nat × TocEntry) → Nat → List (Nat × Nat × TocEntry)
  | [], _ => []
  | [(p, e)], bodyEnd => [(p, bodyEnd, e)]
  | (p, e) :: (q, f) :: rest, bodyEnd =>
      (p, q, e) :: pairUpBounds ((q, f) :: rest) bodyEnd

def boundariesFromFound (found : List (Nat × TocEntry)) (bodyEnd : Nat) :
    List (Nat × Nat × TocEntry) :=
  pairUpBounds (sortFound found) bodyEnd

/-- The shape required of one strategy resolved span list: starts are
non-decreasing, each end equals the next start, and the last end equals
the body end. -/
def spansChainOk : List (Nat × Nat × TocEntry) → Nat → Prop
  | [], _ => True
  | [b], bodyEnd => b.2.1 = bodyEnd
  | b :: b2 :: rest, bodyEnd =>
      b.1 ≤ b2.1 ∧ b.2.1 = b2.1 ∧ spansChainOk (b2 :: rest) bodyEnd

def sortedByPos : List (Nat × TocEntry) → Prop
  | [] => True
  | [_] => True
  | x :: y :: rest => x.1 ≤ y.1 ∧ sortedByPos (y :: rest)

lemma sortedByPos_insertByPos {l : List (Nat × TocEntry)} (x : Nat × TocEntry)
    (h : sortedByPos l) : sortedByPos (insertByPos x l) := by
  induction l with
  | nil => trivial
  | cons y ys ih =>
      rw [insertByPos]
      by_cases hxy : x.1 ≤ y.1
      · rw [if_pos hxy]
        exact ⟨hxy, h⟩
      · rw [if_neg hxy]
        have hyx : y.1 ≤ x.1 := by omega
        cases ys with
        | nil => exact ⟨hyx, trivial⟩
        | cons z zs =>
            have hyz : y.1 ≤ z.1 := h.1
            have hrest : sortedByPos (z :: zs) := h.2
            have ihs := ih hrest
            rw [insertByPos] at ihs ⊢
            by_cases hxz : x.1 ≤ z.1
            · rw [if_pos hxz] at ihs ⊢
              exact ⟨hyx, ihs⟩
            · rw [if_neg hxz] at ihs ⊢
              exact ⟨hyz, ihs⟩

lemma sortedByPos_sortFound (l : List (Nat × TocEntry)) :
    sortedByPos (sortFound l) := by
  induction l with
  | nil => trivial
  | cons x xs ih => exact sortedByPos_insertByPos x ih

lemma spansChainOk_pairUpBounds :
    ∀ (l : List (Nat × TocEntry)) (bodyEnd : Nat), sortedByPos l →
      spansChainOk (pairUpBounds l bodyEnd) bodyEnd := by
  intro l
  induction l with
  | nil => intro bodyEnd _; simp [pairUpBounds, spansChainOk]
  | cons x rest ih =>
      intro bodyEnd hs
      obtain ⟨p, e⟩ := x
      cases rest with
      | nil => simp [pairUpBounds, spansChainOk]
      | cons y ys =>
          obtain ⟨q, f⟩ := y
          have hpq : p ≤ q := hs.1
          have ih2 := ih bodyEnd hs.2
          cases ys with
          | nil =>
              simp [pairUpBounds, spansChainOk] at ih2 ⊢
              exact hpq
          | cons z zs =>
              obtain ⟨r, g⟩ := z
              rw [pairUpBounds]
              rw [pairUpBounds] at ih2
              exact ⟨hpq, rfl, ih2⟩

/-!
## Title matcher (source lines 676-690 and 800-823)

`build_regex_for_title` escapes the title (so every character is matched
literally, case-insensitively) and then turns each escaped space into
`\s+`.  `tMatch t b` decides whether that pattern matches at the head of
`b`: a space in the title consumes one or more whitespace characters
(with full backtracking, i.e. existential semantics), any other title
character consumes exactly one case-insensitively equal character.

In strict mode the pattern is prefixed with `(?:^|\n)\s*`: a match
starting at offset 0 skips leading whitespace, a match starting later
consumes a newline and then optional whitespace.  `re.search` returns
the leftmost matching start offset.
-/

/-- Pattern `\s+` followed by the continuation `k` (the rest of the title
pattern), with full backtracking: one whitespace character is consumed,
then either the continuation matches or more whitespace is consumed. -/
def wsPlus (k : List Char → Bool) : List Char → Bool
  | [] => false
  | c :: cs => isWs c && (k cs || wsPlus k cs)

def tMatch : List Char → List Char → Bool
  | [], _ => true
  | t :: ts, b =>
      if t = ' ' then wsPlus (tMatch ts) b
      else
        match b with
        | [] => false
        | c :: cs => charCI t c && tMatch ts cs

/-- The `re.search` of the title pattern: first offset at which `tMatch`
succeeds (`i` is the offset of the head of the current suffix). -/
def searchTM (t : List Char) : List Char → Nat → Option Nat
  | [], i => if tMatch t [] then some i else none
  | c :: cs, i => if tMatch t (c :: cs) then some i else searchTM t cs (i + 1)

/-- Loose matching: `pattern.search(body).start()`. -/
def looseFind (t body : List Char) : Option Nat :=
  searchTM t body 0

/-- Pattern `\s*` followed by the continuation `k`, with backtracking. -/
def wsStar (k : List Char → Bool) : List Char → Bool
  | [] => k []
  | c :: cs => k (c :: cs) || (isWs c && wsStar k cs)

/-- Pattern `\s*` followed by the title pattern. -/
def wsStarT (t : List Char) (b : List Char) : Bool :=
  wsStar (tMatch t) b

/-- Scan for the `\n\s*TITLE` branch of the strict pattern. -/
def strictAux (t : List Char) : List Char → Nat → Option Nat
  | [], _ => none
  | c :: cs, i =>
      if c = '\n' && wsStarT t cs then some i else strictAux t cs (i + 1)

/-- Strict matching: `match.start()` of `(?:^|\n)\s*TITLE` under leftmost
search (the `^` alternative is only available at offset 0). -/
def strictSearch (t body : List Char) : Option Nat :=
  if wsStarT t body then some 0 else strictAux t body 0

/-- The first token of Python `str.split()`: the first maximal run of
non-whitespace characters, if any. -/
def firstWord (l : List Char) : Option (List Char) :=
  match l.dropWhile (fun c => isWs c) with
  | [] => none
  | c :: cs => some (c :: cs.takeWhile (fun d => !isWs d))

/-- The strict-mode offset after the source adjustment: the matched text
starts with the consumed newline/whitespace prefix, and the source moves
the offset forward to the first case-insensitive occurrence of the first
word of the title inside the matched text.  Because that prefix is pure
whitespace and the first word contains no whitespace, the first
occurrence inside the matched text coincides with the first occurrence
in the body at or after the match start, which is what is computed here.
(When the title has no words at all, `title.split()[0]` in the source
would raise; that case is unreachable for the TOC data and is embedded
as keeping the unadjusted offset.) -/
def strictPos (title body : List Char) : Option Nat :=
  match strictSearch title body with
  | none => none
  | some q =>
      match firstWord title with
      | none => some q
      | some w =>
          match findLitCI w (body.drop q) with
          | some d => some (q + d)
          | none => some q

/-- One entry under one strategy, shifted by the body offset
(`_match_entries_with_strategy` loop body). -/
def matchOne (body : List Char) (bodyOffset : Nat) (strict : Bool)
    (e : TocEntry) : Option (Nat × TocEntry) :=
  match strict with
  | true => (strictPos e.title body).map (fun p => (p + bodyOffset, e))
  | false => (looseFind e.title body).map (fun p => (p + bodyOffset, e))

/-- Function `_match_entries_with_strategy` (source lines 800-823). -/
def matchEntriesWithStrategy (body : List Char) (entries : List TocEntry)
    (bodyOffset : Nat) (strict : Bool) : List (Nat × TocEntry) :=
  entries.filterMap (matchOne body bodyOffset strict)

lemma searchTM_isSome_iff (t : List Char) :
    ∀ (b : List Char) (i : Nat),
      (searchTM t b i).isSome = true ↔ ∃ k, tMatch t (b.drop k) = true := by
  intro b
  induction b with
  | nil =>
      intro i
      rw [searchTM]
      constructor
      · intro h
        by_cases hm : tMatch t [] = true
        · exact ⟨0, hm⟩
        · simp [hm] at h
      · intro ⟨k, hk⟩
        simp only [List.drop_nil] at hk
        simp [hk]
  | cons c cs ih =>
      intro i
      rw [searchTM]
      by_cases hm : tMatch t (c :: cs) = true
      · rw [if_pos hm]
        exact ⟨fun _ => ⟨0, hm⟩, fun _ => rfl⟩
      · rw [if_neg hm]
        rw [ih (i + 1)]
        constructor
        · intro ⟨k, hk⟩
          exact ⟨k + 1, by simpa using hk⟩
        · intro ⟨k, hk⟩
          cases k with
          | zero => simp at hk; exact absurd hk hm
          | succ m => exact ⟨m, by simpa using hk⟩

lemma wsStar_exists {k : List Char → Bool} {b : List Char}
    (h : wsStar k b = true) : ∃ j, k (b.drop j) = true := by
  induction b with
  | nil => exact ⟨0, by simpa [wsStar] using h⟩
  | cons c cs ih =>
      rw [wsStar, Bool.or_eq_true] at h
      rcases h with h | h
      · exact ⟨0, h⟩
      · obtain ⟨j, hj⟩ := ih (Bool.and_elim_right h)
        exact ⟨j + 1, by simpa using hj⟩

lemma wsStarT_exists {t b : List Char} (h : wsStarT t b = true) :
    ∃ k, tMatch t (b.drop k) = true :=
  wsStar_exists h

lemma strictAux_some {t : List Char} :
    ∀ {b : List Char} {i q : Nat}, strictAux t b i = some q →
      ∃ k, tMatch t (b.drop k) = true := by
  intro b
  induction b with
  | nil => intro i q h; rw [strictAux] at h; cases h
  | cons c cs ih =>
      intro i q h
      rw [strictAux] at h
      by_cases hc : (c = '\n' && wsStarT t cs) = true
      · obtain ⟨k, hk⟩ := wsStarT_exists (Bool.and_elim_right hc)
        exact ⟨k + 1, by simpa using hk⟩
      · rw [if_neg hc] at h
        obtain ⟨k, hk⟩ := ih h
        exact ⟨k + 1, by simpa using hk⟩

/-- C3: whenever strict matching finds an offset for a title in a body,
loose matching over the same body also finds an offset for that title. -/
theorem strict_implies_loose (title body : List Char)
    (h : (strictSearch title body).isSome = true) :
    (looseFind title body).isSome = true := by
  rw [looseFind, searchTM_isSome_iff]
  rw [strictSearch] at h
  by_cases hw : wsStarT title body = true
  · exact wsStarT_exists hw
  · rw [if_neg hw] at h
    cases ha : strictAux title body 0 with
    | none => rw [ha] at h; cases h
    | some q => exact strictAux_some ha

/-- Witness for C3 at a concrete strict match. -/
theorem strict_implies_loose_witness :
    (strictSearch ("AB".toList) ("AB cd".toList)).isSome = true ∧
    (looseFind ("AB".toList) ("AB cd".toList)).isSome = true :=
  ⟨by decide, strict_implies_loose _ _ (by decide)⟩

lemma matchOne_loose_mem {body : List Char} {off p : Nat} {a e : TocEntry}
    (h : matchOne body off false a = some (p, e)) :
    a = e ∧ ∃ v, looseFind e.title body = some v ∧ p = v + off := by
  rw [matchOne] at h
  cases hv : looseFind a.title body with
  | none => rw [hv] at h; cases h
  | some v =>
      rw [hv] at h
      have hpair : (v + off, a) = (p, e) := by simpa using h
      have hp : v + off = p := congrArg Prod.fst hpair
      have ha : a = e := congrArg Prod.snd hpair
      subst ha
      exact ⟨rfl, v, hv, hp.symm⟩

/-- C7: two TOC entries with identical title strings matched against the
same body under the loose strategy resolve to the same offset: the loose
matcher depends only on the title string and the body. -/
theorem loose_duplicate_title_same_offset (body : List Char)
    (entries : List TocEntry) (off : Nat) (p1 p2 : Nat) (e1 e2 : TocEntry)
    (h1 : (p1, e1) ∈ matchEntriesWithStrategy body entries off false)
    (h2 : (p2, e2) ∈ matchEntriesWithStrategy body entries off false)
    (ht : e1.title = e2.title) : p1 = p2 := by
  rw [matchEntriesWithStrategy, List.mem_filterMap] at h1 h2
  obtain ⟨a1, _, ha1⟩ := h1
  obtain ⟨a2, _, ha2⟩ := h2
  obtain ⟨rfl, v1, hv1, hp1⟩ := matchOne_loose_mem ha1
  obtain ⟨rfl, v2, hv2, hp2⟩ := matchOne_loose_mem ha2
  rw [ht] at hv1
  rw [hv1] at hv2
  cases hv2
  omega

/-- A concrete pair of entries sharing one title, for the C7 witness. -/
def entDupA : TocEntry := ⟨"AB".toList, none, "poem".toList⟩

def entDupB : TocEntry := ⟨"AB".toList, some ("Z".toList), "article".toList⟩

/-- Witness for C7: two entries sharing a title in one issue resolve to
one offset. -/
theorem loose_duplicate_title_same_offset_witness :
    ((3, entDupA) ∈
       matchEntriesWithStrategy ("x\nAB y".toList) [entDupA, entDupB] 1 false) ∧
    ((3, entDupB) ∈
       matchEntriesWithStrategy ("x\nAB y".toList) [entDupA, entDupB] 1 false) ∧
    (3 : Nat) = 3 :=
  ⟨by decide, by decide,
   loose_duplicate_title_same_offset ("x\nAB y".toList) [entDupA, entDupB]
     1 3 3 entDupA entDupB (by decide) (by decide) (by decide)⟩

/-- C2: for every list of (offset, entry) matches and every body end,
the Boundary Resolver produces spans sorted by non-decreasing start in
which each end equals the next start and the last end equals the body
end; and an empty input list yields an empty result list. -/
theorem boundariesFromFound_chain (found : List (Nat × TocEntry)) (bodyEnd : Nat) :
    spansChainOk (boundariesFromFound found bodyEnd) bodyEnd ∧
    boundariesFromFound [] bodyEnd = [] := by
  constructor
  · exact spansChainOk_pairUpBounds _ bodyEnd (sortedByPos_sortFound found)
  · rfl

/-!
## `strip_running_noise` (source lines 693-736)

Four `re.sub` passes followed by a blank-line collapse.  Each pattern is
embedded as a function `List Char → Option Nat` returning the length of
the (unique, leftmost-greedy) match starting at the head of the given
suffix, or `none`.  None of the four patterns can match the empty string
(each requires a mandatory literal), so every returned length is
positive.  `subScan` then reproduces `re.finditer`/`re.sub`: scan left
to right, record each match (trimmed, as the source does with
`m.group().strip()`), splice in the replacement and continue after the
match end.  The fuel argument (initialised to the text length, an upper
bound on the number of steps) only makes the recursion structural.
-/

def wsRunLen (l : List Char) : Nat := (l.takeWhile (fun c => isWs c)).length

def digitRunLen (l : List Char) : Nat := (l.takeWhile (fun c => c.isDigit)).length

def nonWordRunLen (l : List Char) : Nat :=
  (l.takeWhile (fun c => !isWordChar c)).length

def monthNames : List (List Char) :=
  ["JANUARY", "FEBRUARY", "MARCH", "APRIL", "MAY", "JUNE", "JULY",
   "AUGUST", "SEPTEMBER", "OCTOBER", "NOVEMBER", "DECEMBER"].map
    String.toList

/-- Pattern `(?:JANUARY|...|DECEMBER)?`: length of the month alternative matching
at the head, or 0 (the alternatives are prefix-disjoint). -/
def monthLenAt (l : List Char) : Nat :=
  match monthNames.find? (fun m => litCI m l) with
  | some m => m.length
  | none => 0

def rsmLit : List Char := "RELIEF SOCIETY MAGAZINE".toList

/-- Running-header pattern
`\d*\s*RELIEF SOCIETY MAGAZINE\s*[\W]*\s*(?:MONTH)?\s*\d{0,4}` with
`re.IGNORECASE`.  The leading `\d*\s*` admits no backtracking freedom
(the following literal starts with a letter), and everything after the
literal is optional-greedy with nothing mandatory behind it, so the
greedy run lengths below give exactly the match the engine produces. -/
def headerMatchAt (l : List Char) : Option Nat :=
  let d := digitRunLen l
  let l1 := l.drop d
  let w := wsRunLen l1
  let l2 := l1.drop w
  if litCI rsmLit l2 then
    let l3 := l2.drop rsmLit.length
    let a := wsRunLen l3
    let l4 := l3.drop a
    let b := nonWordRunLen l4
    let l5 := l4.drop b
    let c := wsRunLen l5
    let l6 := l5.drop c
    let m := monthLenAt l6
    let l7 := l6.drop m
    let d2 := wsRunLen l7
    let l8 := l7.drop d2
    let e2 := min (digitRunLen l8) 4
    some (d + w + rsmLit.length + a + b + c + m + d2 + e2)
  else none

def lessonLit : List Char := "LESSON DEPARTMENT".toList

/-- Index of the last newline in a list, if any. -/
def lastNlIdx : List Char → Option Nat
  | [] => none
  | c :: rest =>
      match lastNlIdx rest with
      | some i => some (i + 1)
      | none => if c = '\n' then some 0 else none

/-- Section-banner pattern `\n\s*LESSON DEPARTMENT\s*\n` (case
sensitive; replaced by a single newline).  The trailing `\s*\n` matches
up to the last newline of the whitespace run after the literal. -/
def lessonMatchAt : List Char → Option Nat
  | c :: rest =>
      if c = '\n' then
        let w := wsRunLen rest
        let l2 := rest.drop w
        if litCS lessonLit l2 then
          let run := (l2.drop lessonLit.length).takeWhile (fun c => isWs c)
          match lastNlIdx run with
          | some t => some (1 + w + lessonLit.length + t + 1)
          | none => none
        else none
      else none
  | [] => none

def mailingHead : List Char := "Entered as second-class matter".toList

def authorizedLit : List Char := "authorized".toList

def juneLit : List Char := "June".toList

def d29Lit : List Char := "29,".toList

def y1918Lit : List Char := "1918.".toList

/-- The mandatory tail `authorized\s+June\s+29,\s+1918\.` of the mailing
pattern (each `\s+` is followed by a literal starting with a
non-whitespace character, so the maximal run is forced). -/
def mailingTailLen (l : List Char) : Option Nat :=
  if litCI authorizedLit l then
    let l1 := l.drop authorizedLit.length
    let w1 := wsRunLen l1
    if w1 = 0 then none
    else
      let l2 := l1.drop w1
      if litCI juneLit l2 then
        let l3 := l2.drop juneLit.length
        let w2 := wsRunLen l3
        if w2 = 0 then none
        else
          let l4 := l3.drop w2
          if litCI d29Lit l4 then
            let l5 := l4.drop d29Lit.length
            let w3 := wsRunLen l5
            if w3 = 0 then none
            else
              let l6 := l5.drop w3
              if litCI y1918Lit l6 then
                some (authorizedLit.length + w1 + juneLit.length + w2 +
                  d29Lit.length + w3 + y1918Lit.length)
              else none
          else none
      else none
  else none

/-- The lazy `.*?` of the mailing pattern: distance to the first position
where the tail matches, plus the tail length. -/
def mailingScan : List Char → Option Nat
  | [] => none
  | c :: rest =>
      match mailingTailLen (c :: rest) with
      | some n => some n
      | none => (mailingScan rest).map (· + 1)

/-- Mailing-statement pattern
`Entered as second-class matter.*?authorized\s+June\s+29,\s+1918\.`
with `re.DOTALL | re.IGNORECASE`. -/
def mailingMatchAt (l : List Char) : Option Nat :=
  if litCI mailingHead l then
    (mailingScan (l.drop mailingHead.length)).map (mailingHead.length + ·)
  else none

def stampsLit : List Char :=
  "Stamps should accompany manuscripts for their return".toList

/-- Pattern `Stamps should accompany manuscripts for their return\.?`
(case sensitive, greedy optional dot). -/
def stampsMatchAt (l : List Char) : Option Nat :=
  if litCS stampsLit l then
    match l.drop stampsLit.length with
    | '.' :: _ => some (stampsLit.length + 1)
    | _ => some stampsLit.length
  else none

/-- One `re.sub` pass: scan left to right, at each offset try the
pattern; on a match record the trimmed match text, emit the replacement
and resume after the match end. -/
def subScan (matchAt : List Char → Option Nat) (repl : List Char) :
    Nat → List Char → List Char × List (List Char)
  | 0, l => (l, [])
  | _ + 1, [] => ([], [])
  | f + 1, c :: rest =>
      match matchAt (c :: rest) with
      | some n =>
          if n = 0 then
            -- unreachable: none of the embedded patterns matches the
            -- empty string; treated as a non-match
            let r := subScan matchAt repl f rest
            (c :: r.1, r.2)
          else
            let r := subScan matchAt repl f ((c :: rest).drop n)
            (repl ++ r.1, trim ((c :: rest).take n) :: r.2)
      | none =>
          let r := subScan matchAt repl f rest
          (c :: r.1, r.2)

def subPat (matchAt : List Char → Option Nat) (repl : List Char)
    (l : List Char) : List Char × List (List Char) :=
  subScan matchAt repl l.length l

/-- One pass threaded through an accumulating (text, fragments) pair. -/
def subPatAcc (matchAt : List Char → Option Nat) (repl : List Char)
    (st : List Char × List (List Char)) : List Char × List (List Char) :=
  let r := subPat matchAt repl st.1
  (r.1, st.2 ++ r.2)

/-- The pass `re.sub(r'\n{3,}', '\n\n', text)` as a one-pass state machine: `k`
counts the newlines already emitted in the current run; from the third
newline of a run onwards the character is dropped. -/
def collapseNlAux : Nat → List Char → List Char
  | _, [] => []
  | k, c :: rest =>
      if c = '\n' then
        if 2 ≤ k then collapseNlAux k rest
        else '\n' :: collapseNlAux (k + 1) rest
      else c :: collapseNlAux 0 rest

def collapseNewlines (l : List Char) : List Char :=
  collapseNlAux 0 l

/-- Function `strip_running_noise`: the four substitution passes in source order,
then the blank-line collapse; returns the cleaned text and the collected
fragments. -/
def stripRunningNoise (text : List Char) : List Char × List (List Char) :=
  let s := subPatAcc stampsMatchAt []
    (subPatAcc mailingMatchAt []
      (subPatAcc lessonMatchAt ['\n']
        (subPatAcc headerMatchAt [] (text, []))))
  (collapseNewlines s.1, s.2)

/-- A text in which deleting one running header splices the surrounding
characters into a second running header. -/
def noiseSpliceText : List Char :=
  "RELIEF SORELIEF SOCIETY MAGAZINECIETY MAGAZINE".toList

/-- C4 counterexample: noise stripping is not idempotent.  Stripping the
embedded header from `noiseSpliceText` leaves the exact text
`RELIEF SOCIETY MAGAZINE`, and a second application strips that too:
it neither returns the cleaned text unchanged nor returns an empty
fragment list. -/
theorem stripNoise_not_idempotent :
    stripRunningNoise noiseSpliceText = (rsmLit, [rsmLit]) ∧
    ¬ (stripRunningNoise ((stripRunningNoise noiseSpliceText).1) =
        ((stripRunningNoise noiseSpliceText).1, ([] : List (List Char)))) := by
  constructor
  · decide
  · decide

lemma subScan_snd_nil {m : List Char → Option Nat} {r : List Char} :
    ∀ {f : Nat} {l : List Char}, (subScan m r f l).2 = [] →
      (subScan m r f l).1 = l := by
  intro f
  induction f with
  | zero => intro l _; rfl
  | succ g ih =>
      intro l h
      cases l with
      | nil => rfl
      | cons c rest =>
          rw [subScan] at h ⊢
          cases hm : m (c :: rest) with
          | some n =>
              rw [hm] at h
              dsimp only at h ⊢
              by_cases hn : n = 0
              · rw [if_pos hn] at h ⊢
                rw [ih h]
              · rw [if_neg hn] at h
                cases h
          | none =>
              rw [hm] at h
              dsimp only at h ⊢
              rw [ih h]

lemma subPat_snd_nil {m : List Char → Option Nat} {r l : List Char}
    (h : (subPat m r l).2 = []) : (subPat m r l).1 = l :=
  subScan_snd_nil h

lemma subPatAcc_snd_nil {m : List Char → Option Nat} {r : List Char}
    {st : List Char × List (List Char)} (h : (subPatAcc m r st).2 = []) :
    st.2 = [] ∧ (subPatAcc m r st).1 = st.1 := by
  rw [subPatAcc] at h ⊢
  simp only [] at h ⊢
  have h2 := List.append_eq_nil.mp h
  exact ⟨h2.1, subPat_snd_nil h2.2⟩

/-- Three consecutive newlines occur somewhere in the list. -/
def hasTripleNl : List Char → Bool
  | a :: b :: c :: rest =>
      (a = '\n' && b = '\n' && c = '\n') || hasTripleNl (b :: c :: rest)
  | _ => false

lemma hasTripleNl_tail {a : Char} {t : List Char}
    (h : hasTripleNl (a :: t) = false) : hasTripleNl t = false := by
  cases t with
  | nil => rfl
  | cons x tt =>
      cases tt with
      | nil => rfl
      | cons y ttt =>
          simp only [hasTripleNl, Bool.or_eq_false_iff] at h
          exact h.2

lemma hasTripleNl_append_right {xs t : List Char}
    (h : hasTripleNl (xs ++ t) = false) : hasTripleNl t = false := by
  induction xs with
  | nil => simpa using h
  | cons a r ih => exact ih (hasTripleNl_tail (by simpa using h))

lemma hasTripleNl_cons_ne {c : Char} {t : List Char} (hc : ¬ c = '\n') :
    hasTripleNl (c :: t) = hasTripleNl t := by
  cases t with
  | nil => rfl
  | cons x tt =>
      cases tt with
      | nil => rfl
      | cons y ttt => simp [hasTripleNl, hc]

lemma hasTripleNl_cons_nl {t : List Char} (h1 : hasTripleNl t = false)
    (h2 : ∀ x y tt, t = x :: y :: tt → ¬ (x = '\n' ∧ y = '\n')) :
    hasTripleNl ('\n' :: t) = false := by
  cases t with
  | nil => rfl
  | cons x tt =>
      cases tt with
      | nil => rfl
      | cons y ttt =>
          simp only [hasTripleNl, Bool.or_eq_false_iff]
          refine ⟨?_, h1⟩
          have := h2 x y ttt rfl
          by_cases hx : x = '\n' <;> by_cases hy : y = '\n' <;>
            simp [hx, hy] at this ⊢

lemma head_collapseNlAux_ge2 :
    ∀ {l : List Char} {k : Nat} {x : Char}, 2 ≤ k →
      (collapseNlAux k l).head? = some x → ¬ x = '\n' := by
  intro l
  induction l with
  | nil => intro k x _ h; simp [collapseNlAux] at h
  | cons c rest ih =>
      intro k x hk h
      rw [collapseNlAux] at h
      by_cases hc : c = '\n'
      · rw [if_pos hc, if_pos hk] at h
        exact ih hk h
      · rw [if_neg hc] at h
        have : c = x := by simpa using h
        subst this
        exact hc

lemma hasTripleNl_collapseNlAux : ∀ (l : List Char) (k : Nat),
    hasTripleNl (collapseNlAux k l) = false := by
  intro l
  induction l with
  | nil => intro k; rfl
  | cons c rest ih =>
      intro k
      rw [collapseNlAux]
      by_cases hc : c = '\n'
      · rw [if_pos hc]
        by_cases hk : 2 ≤ k
        · rw [if_pos hk]; exact ih k
        · rw [if_neg hk]
          refine hasTripleNl_cons_nl (ih (k + 1)) ?_
          intro x y tt heq hxy
          by_cases hk1 : 2 ≤ k + 1
          · have : ¬ x = '\n' :=
              head_collapseNlAux_ge2 hk1 (by rw [heq]; rfl)
            exact this hxy.1
          · -- k = 0, so the inner state is 1
            have hk0 : k = 0 := by omega
            subst hk0
            cases rest with
            | nil => simp [collapseNlAux] at heq
            | cons d r2 =>
                rw [collapseNlAux] at heq
                by_cases hd : d = '\n'
                · rw [if_pos hd, if_neg (by omega)] at heq
                  have hx : x = '\n' := by
                    have := List.cons_eq_cons.mp heq
                    exact this.1.symm
                  have hy : ¬ y = '\n' := by
                    have htl : collapseNlAux 2 r2 = y :: tt := by
                      have h5 := (List.cons_eq_cons.mp heq).2
                      simpa using h5
                    exact head_collapseNlAux_ge2 (le_refl 2) (by rw [htl]; rfl)
                  exact hy hxy.2
                · rw [if_neg hd] at heq
                  have : d = x := (List.cons_eq_cons.mp heq).1
                  subst this
                  exact hd hxy.1
      · rw [if_neg hc]
        rw [hasTripleNl_cons_ne hc]
        exact ih 0

lemma hasTripleNl_replicate_ge2 {k : Nat} (t : List Char) (hk : 2 ≤ k) :
    hasTripleNl (List.replicate k '\n' ++ '\n' :: t) = true := by
  obtain ⟨m, rfl⟩ : ∃ m, k = m + 2 := ⟨k - 2, by omega⟩
  rw [List.replicate_succ, List.replicate_succ]
  cases m with
  | zero => simp [hasTripleNl]
  | succ j => rw [List.replicate_succ]; simp [hasTripleNl]

lemma collapseNlAux_of_noTriple : ∀ (l : List Char) (k : Nat),
    hasTripleNl (List.replicate k '\n' ++ l) = false →
    collapseNlAux k l = l := by
  intro l
  induction l with
  | nil => intro k _; rfl
  | cons c rest ih =>
      intro k h
      rw [collapseNlAux]
      by_cases hc : c = '\n'
      · rw [if_pos hc]
        by_cases hk : 2 ≤ k
        · exfalso
          subst hc
          rw [hasTripleNl_replicate_ge2 rest hk] at h
          cases h
        · rw [if_neg hk]
          subst hc
          have h2 : hasTripleNl (List.replicate (k + 1) '\n' ++ rest) = false := by
            rw [List.replicate_succ', List.append_assoc] at *
            simpa using h
          rw [ih (k + 1) h2]
      · rw [if_neg hc]
        have h2 : hasTripleNl rest = false :=
          hasTripleNl_tail (hasTripleNl_append_right h)
        rw [ih 0 (by simpa using h2)]

lemma collapseNewlines_idem (l : List Char) :
    collapseNewlines (collapseNewlines l) = collapseNewlines l :=
  collapseNlAux_of_noTriple _ 0 (by simpa using hasTripleNl_collapseNlAux l 0)

/-- C4 amended: whenever a second application of the Noise Stripper
removes no fragments, it returns the cleaned text unchanged.  (The
unconditional claim fails, see `stripNoise_not_idempotent`.) -/
theorem stripNoise_second_clean_unchanged (text : List Char)
    (h : (stripRunningNoise ((stripRunningNoise text).1)).2 = []) :
    (stripRunningNoise ((stripRunningNoise text).1)).1 =
      (stripRunningNoise text).1 := by
  have himg : ∃ x, (stripRunningNoise text).1 = collapseNewlines x := by
    rw [stripRunningNoise]
    exact ⟨_, rfl⟩
  obtain ⟨x, hx⟩ := himg
  rw [stripRunningNoise] at h ⊢
  simp only [] at h ⊢
  obtain ⟨h3, e4⟩ := subPatAcc_snd_nil h
  obtain ⟨h2, e3⟩ := subPatAcc_snd_nil h3
  obtain ⟨h1, e2⟩ := subPatAcc_snd_nil h2
  obtain ⟨_, e1⟩ := subPatAcc_snd_nil h1
  rw [e4, e3, e2, e1]
  rw [hx]
  exact collapseNewlines_idem x

/-- Witness for the amended C4 theorem: a text whose only noise is a run
of blank lines; the second application strips nothing and returns the
cleaned text unchanged. -/
theorem stripNoise_second_clean_unchanged_witness :
    (stripRunningNoise ((stripRunningNoise ("a\n\n\n\nb".toList)).1)).2 = [] ∧
    (stripRunningNoise ((stripRunningNoise ("a\n\n\n\nb".toList)).1)).1 =
      (stripRunningNoise ("a\n\n\n\nb".toList)).1 :=
  ⟨by decide, stripNoise_second_clean_unchanged _ (by decide)⟩

/-!
## `find_ads_section` (source lines 739-779)

The seven ad markers, each embedded as a does-it-match-here test on a
suffix.  `re.search` per marker returns its first position; the source
takes the minimum over markers, which equals the first position at
which any marker matches.
-/

/-- First position (head-anchored) at which the predicate holds on a
suffix; the predicate is also tried on the empty suffix at the end. -/
def findPosBy (p : List Char → Bool) : List Char → Option Nat
  | [] => if p [] then some 0 else none
  | c :: cs => if p (c :: cs) then some 0 else (findPosBy p cs).map (· + 1)

/-- Pattern `DAYNES\S?\s*MUSIC\s*CO` tail after the literal `DAYNES`: the two
`\s*` are each followed by a letter, so their maximal runs are forced;
the optional `\S?` is tried both ways. -/
def daynesTail (l : List Char) : Bool :=
  let w := wsRunLen l
  let l2 := l.drop w
  litCI ("MUSIC".toList) l2 &&
    (let l3 := l2.drop 5
     let w2 := wsRunLen l3
     litCI ("CO".toList) (l3.drop w2))

def daynesAt (l : List Char) : Bool :=
  litCI ("DAYNES".toList) l &&
    (let l1 := l.drop 6
     daynesTail l1 ||
       (match l1 with
        | c :: cs => !isWs c && daynesTail cs
        | [] => false))

/-- Pattern `L\.\s*D\.\s*S\.\s*BUSINESS COLLEGE`. -/
def ldsAt (l : List Char) : Bool :=
  litCI ("L.".toList) l &&
    (let l1 := (l.drop 2).drop (wsRunLen (l.drop 2))
     litCI ("D.".toList) l1 &&
       (let l2 := (l1.drop 2).drop (wsRunLen (l1.drop 2))
        litCI ("S.".toList) l2 &&
          litCI ("BUSINESS COLLEGE".toList)
            ((l2.drop 2).drop (wsRunLen (l2.drop 2)))))

/-- Any of the seven ad markers matches at the head of the suffix. -/
def adMarkerAt (l : List Char) : Bool :=
  litCI ("When Buying Mention Relief Society Magazine".toList) l ||
  litCI ("DESERET NEWS PRESS".toList) l ||
  litCI ("DESERET BOOK COMPANY".toList) l ||
  daynesAt l ||
  ldsAt l ||
  litCI ("MORMON HANDICRAFT".toList) l ||
  litCI ("Brigham Young University".toList) l

/-- Highest index of a `"\n\n"` occurrence (Python `str.rfind`). -/
def rfindNlNl : List Char → Option Nat
  | [] => none
  | c :: cs =>
      match rfindNlNl cs with
      | some i => some (i + 1)
      | none =>
          match c, cs with
          | '\n', '\n' :: _ => some 0
          | _, _ => none

/-- Function `find_ads_section`: search the last 30 percent of the body for the
earliest ad marker, walk back to the nearest preceding blank line within
500 characters, and split there.  `int(len(body) * 0.7)` is embedded as
`7 * len / 10` (for text sizes far below 2^50 the float computation in
the source agrees with the rational one).  Returns
(trimmed body, ads text, ads start in the full text). -/
def findAdsSection (body : List Char) (bodyOffset : Nat) :
    List Char × List Char × Nat :=
  let searchStart := 7 * body.length / 10
  let region := body.drop searchStart
  match findPosBy adMarkerAt region with
  | none => (body, [], bodyOffset + body.length)
  | some rel =>
      let pos0 := searchStart + rel
      let pos :=
        match rfindNlNl (body.take pos0) with
        | some i => if pos0 - i < 500 then i else pos0
        | none => pos0
      (body.take pos, trim (body.drop pos), bodyOffset + pos)

/-!
## `extract_toc_from_front_matter` (source lines 837-853)

Pattern `(CONTENTS.*?)(?=GENERAL\s+BOARD|PUBLISHED\s+MONTHLY|
MAGAZINE\s+CIRCULATION|$)` with `re.DOTALL | re.IGNORECASE`.  The match
starts at the first case-insensitive `CONTENTS`; the lazy group then
ends at the first position after it where one of the lookahead
alternatives matches.  Without `re.MULTILINE`, `$` matches at the end of
the string or just before a final newline, which on a suffix means the
suffix is empty or a single newline, so a stop position always exists.
-/

/-- Case-insensitive word pair separated by `\s+` (the second literal
starts with a letter, so the maximal whitespace run is forced). -/
def wordPairAt (p1 p2 l : List Char) : Bool :=
  litCI p1 l &&
    (let l1 := l.drop p1.length
     let w := wsRunLen l1
     decide (w ≠ 0) && litCI p2 (l1.drop w))

def contentsLit : List Char := "CONTENTS".toList

def tocStopAt (l : List Char) : Bool :=
  wordPairAt ("GENERAL".toList) ("BOARD".toList) l ||
  wordPairAt ("PUBLISHED".toList) ("MONTHLY".toList) l ||
  wordPairAt ("MAGAZINE".toList) ("CIRCULATION".toList) l ||
  l == [] || l == ['\n']

def extractTocFromFrontMatter (fm : List Char) : List Char × List Char :=
  match findLitCI contentsLit fm with
  | none => ([], fm)
  | some p =>
      match findPosBy tocStopAt (fm.drop (p + contentsLit.length)) with
      | some rel =>
          let q := p + contentsLit.length + rel
          (trim (slice fm p q), trim (fm.take p ++ fm.drop q))
      | none =>
          -- unreachable: `tocStopAt` holds on the empty suffix
          ([], fm)

/-!
## `extract_issue` (source lines 856-1129)

The orchestrator, embedded as a pure function from (issue text, TOC
entries) to all the observable outputs the claims mention.  File writes
are modelled for a normal (non dry) run: a filename enters `written`
exactly when the source would call `write_text`, i.e. when the cleaned
content is non-empty (entry files) or the corresponding block is
non-empty (TOC/ADS/MISC).  Constant per-issue fields of manifest rows
(path, volume, month) carry no information about this issue beyond
their presence and are omitted from the row record.
-/

structure StratResult where
  file : List Char
  position : Nat
  rawLen : Nat
  content : List Char
deriving DecidableEq

structure JsonEntry where
  index : Nat
  title : List Char
  author : Option (List Char)
  etype : List Char
  identical : Bool
  strictMatch : Option StratResult
  looseMatch : Option StratResult
deriving DecidableEq

structure ManifestRow where
  file : List Char
  etype : List Char
  title : List Char
  author : Option (List Char)
  strategy : List Char
deriving DecidableEq

structure TitleOut where
  json : Option JsonEntry
  rows : List ManifestRow
  written : List (List Char)
  noise : List (List Char)
  covered : List (Nat × Nat)
deriving DecidableEq

/-- Python dict built by a comprehension: the last binding of a key
wins. -/
def dlookupSpan (k : List Char) : List (List Char × Nat × Nat) →
    Option (Nat × Nat)
  | [] => none
  | (k2, v) :: rest =>
      match dlookupSpan k rest with
      | some v2 => some v2
      | none => if k2 = k then some v else none

def dlookupEntry (k : List Char) : List TocEntry → Option TocEntry
  | [] => none
  | e :: rest =>
      match dlookupEntry k rest with
      | some v => some v
      | none => if e.title = k then some e else none

def spanDict (bounds : List (Nat × Nat × TocEntry)) :
    List (List Char × Nat × Nat) :=
  bounds.map (fun b => (b.2.2.title, b.1, b.2.1))

/-- Formatting `f"{idx:02d}"`. -/
def pad2 (n : Nat) : List Char :=
  if n < 10 then '0' :: Nat.toDigits 10 n else Nat.toDigits 10 n

/-- Output ordering: strict boundary order, falling back to loose when
strict found nothing, then any loose-only titles appended in loose
order (source lines 900-906). -/
def titleOrder (strictB looseB : List (Nat × Nat × TocEntry)) :
    List (List Char) :=
  let base := (if strictB.isEmpty then looseB else strictB).map
    (fun b => b.2.2.title)
  looseB.foldl
    (fun acc b => if acc.contains b.2.2.title then acc else acc ++ [b.2.2.title])
    base

def enumerate1 (l : List (List Char)) : List (Nat × List Char) :=
  l.enum.map (fun p => (p.1 + 1, p.2))

/-- Per-strategy processing of one matched span (source lines 918-964):
slice, strip, noise-strip, trim; build the output filename.  Returns the
strategy record and the noise fragments of this slice. -/
def mkStratResult (text : List Char) (idx : Nat) (strategyTag : List Char)
    (titleSafe : List Char) (span : Nat × Nat) :
    StratResult × List (List Char) :=
  let raw := trim (slice text span.1 span.2)
  let stripped := stripRunningNoise raw
  let cleaned := trim stripped.1
  let fname := pad2 idx ++ ('_' :: strategyTag) ++ ('_' :: titleSafe) ++
    (".txt".toList)
  ({ file := fname, position := span.1, rawLen := raw.length,
     content := cleaned }, stripped.2)

/-- The loop body of `extract_issue` for one title of the output order:
look up the entry and each strategy span; emit the JSON record with the
`strict_loose_identical` flag, the manifest rows, the files actually
written (non-empty cleaned content only), the recorded noise fragments
(loose fragments only when strict did not match) and the covered
intervals. -/
def processTitle (text : List Char) (entries : List TocEntry)
    (strictD looseD : List (List Char × Nat × Nat)) (idx : Nat)
    (title : List Char) : TitleOut :=
  match dlookupEntry title entries with
  | none => ⟨none, [], [], [], []⟩
  | some ent =>
      let titleSafe := sanitizeFilename ent.title
      match dlookupSpan title strictD, dlookupSpan title looseD with
      | none, none => ⟨none, [], [], [], []⟩
      | some sSpan, none =>
          let sr := mkStratResult text idx ("strict".toList) titleSafe sSpan
          ⟨some ⟨idx, ent.title, ent.author, ent.etype, false, some sr.1, none⟩,
           [⟨sr.1.file, ent.etype, ent.title, ent.author, "strict".toList⟩],
           if sr.1.content = [] then [] else [sr.1.file],
           sr.2,
           [sSpan]⟩
      | none, some lSpan =>
          let lr := mkStratResult text idx ("loose".toList) titleSafe lSpan
          ⟨some ⟨idx, ent.title, ent.author, ent.etype, false, none, some lr.1⟩,
           [⟨lr.1.file, ent.etype, ent.title, ent.author, "loose".toList⟩],
           if lr.1.content = [] then [] else [lr.1.file],
           lr.2,
           [lSpan]⟩
      | some sSpan, some lSpan =>
          let sr := mkStratResult text idx ("strict".toList) titleSafe sSpan
          let lr := mkStratResult text idx ("loose".toList) titleSafe lSpan
          ⟨some ⟨idx, ent.title, ent.author, ent.etype,
             sr.1.content == lr.1.content, some sr.1, some lr.1⟩,
           [⟨sr.1.file, ent.etype, ent.title, ent.author, "strict".toList⟩,
            ⟨lr.1.file, ent.etype, ent.title, ent.author, "loose".toList⟩],
           (if sr.1.content = [] then [] else [sr.1.file]) ++
             (if lr.1.content = [] then [] else [lr.1.file]),
           sr.2,
           [sSpan, lSpan]⟩

/-- Python `sorted(set(covered_intervals))`: first-occurrence deduplication
followed by a lexicographic sort. -/
def dedupPairs (l : List (Nat × Nat)) : List (Nat × Nat) :=
  l.foldl (fun acc x => if acc.contains x then acc else acc ++ [x]) []

def insertPairLex (x : Nat × Nat) : List (Nat × Nat) → List (Nat × Nat)
  | [] => [x]
  | y :: ys =>
      if x.1 < y.1 ∨ (x.1 = y.1 ∧ x.2 ≤ y.2) then x :: y :: ys
      else y :: insertPairLex x ys

def sortPairsLex (l : List (Nat × Nat)) : List (Nat × Nat) :=
  l.foldr insertPairLex []

def allIntervals (covered : List (Nat × Nat)) : List (Nat × Nat) :=
  sortPairsLex (dedupPairs covered)

/-- The gap walk of the Miscellany assembly (source lines 1070-1083):
walk the sorted intervals with a cursor, recording each uncovered
stretch, then the trailing stretch up to the body end. -/
def gapWalkAux (cursor bodyEnd : Nat) : List (Nat × Nat) → List (Nat × Nat)
  | [] => if cursor < bodyEnd then [(cursor, bodyEnd)] else []
  | iv :: rest =>
      (if cursor < iv.1 then [(cursor, iv.1)] else []) ++
        gapWalkAux (max cursor iv.2) bodyEnd rest

def gapIntervals (bodyOffset bodyEnd : Nat) (ivs : List (Nat × Nat)) :
    List (Nat × Nat) :=
  gapWalkAux bodyOffset bodyEnd ivs

/-- The gap texts appended to the miscellany: each gap slice of the full
text, trimmed, kept when non-empty. -/
def gapParts (text : List Char) (gaps : List (Nat × Nat)) :
    List (List Char) :=
  gaps.filterMap (fun g =>
    let t := trim (slice text g.1 g.2)
    if t = [] then none else some t)

/-- Noise deduplication for the STRIPPED NOISE section: keep the first
occurrence of each fragment. -/
def dedupFrags (l : List (List Char)) : List (List Char) :=
  l.foldl (fun acc x => if acc.contains x then acc else acc ++ [x]) []

def joinSep (sep : List Char) : List (List Char) → List Char
  | [] => []
  | [x] => x
  | x :: y :: rest => x ++ sep ++ joinSep sep (y :: rest)

def miscSep : List Char := "\n\n---\n\n".toList

def noiseDivider : List Char := "--- STRIPPED NOISE ---".toList

structure IssueOut where
  frontMatter : List Char
  bodyOffset : Nat
  body : List Char
  adsText : List Char
  adsStart : Nat
  bodyEnd : Nat
  strictBounds : List (Nat × Nat × TocEntry)
  looseBounds : List (Nat × Nat × TocEntry)
  jsonEntries : List JsonEntry
  tocText : List Char
  remainingFm : List Char
  noise : List (List Char)
  covered : List (Nat × Nat)
  gaps : List (Nat × Nat)
  miscText : Option (List Char)
  written : List (List Char)
  rows : List ManifestRow
deriving DecidableEq

def issueFrontMatter (text : List Char) : List Char :=
  (splitFrontMatter text).1

def issueBodyOffset (text : List Char) : Nat :=
  (issueFrontMatter text).length

def issueAds (text : List Char) : List Char × List Char × Nat :=
  findAdsSection (splitFrontMatter text).2 (issueBodyOffset text)

def issueBody (text : List Char) : List Char :=
  (issueAds text).1

def issueAdsText (text : List Char) : List Char :=
  (issueAds text).2.1

def issueBodyEnd (text : List Char) : Nat :=
  issueBodyOffset text + (issueBody text).length

def issueStrictBounds (text : List Char) (entries : List TocEntry) :
    List (Nat × Nat × TocEntry) :=
  boundariesFromFound
    (matchEntriesWithStrategy (issueBody text) entries (issueBodyOffset text) true)
    (issueBodyEnd text)

def issueLooseBounds (text : List Char) (entries : List TocEntry) :
    List (Nat × Nat × TocEntry) :=
  boundariesFromFound
    (matchEntriesWithStrategy (issueBody text) entries (issueBodyOffset text) false)
    (issueBodyEnd text)

def issueOuts (text : List Char) (entries : List TocEntry) : List TitleOut :=
  (enumerate1 (titleOrder (issueStrictBounds text entries)
      (issueLooseBounds text entries))).map
    (fun p => processTitle text entries
      (spanDict (issueStrictBounds text entries))
      (spanDict (issueLooseBounds text entries)) p.1 p.2)

def issueNoise (text : List Char) (entries : List TocEntry) :
    List (List Char) :=
  ((issueOuts text entries).map TitleOut.noise).flatten

def issueCovered (text : List Char) (entries : List TocEntry) :
    List (Nat × Nat) :=
  ((issueOuts text entries).map TitleOut.covered).flatten

def issueTocPair (text : List Char) : List Char × List Char :=
  extractTocFromFrontMatter (issueFrontMatter text)

def issueGaps (text : List Char) (entries : List TocEntry) :
    List (Nat × Nat) :=
  gapIntervals (issueBodyOffset text) (issueBodyEnd text)
    (allIntervals (issueCovered text entries))

def issueMiscParts (text : List Char) (entries : List TocEntry) :
    List (List Char) :=
  (if trim (issueTocPair text).2 = [] then [] else [trim (issueTocPair text).2]) ++
  gapParts text (issueGaps text entries) ++
  (if issueNoise text entries = [] then []
   else noiseDivider :: dedupFrags (issueNoise text entries))

def issueMiscText (text : List Char) (entries : List TocEntry) :
    Option (List Char) :=
  if issueMiscParts text entries = [] then none
  else some (joinSep miscSep (issueMiscParts text entries))

def issueWritten (text : List Char) (entries : List TocEntry) :
    List (List Char) :=
  ((issueOuts text entries).map TitleOut.written).flatten ++
  (if (issueTocPair text).1 = [] then [] else ["TOC.txt".toList]) ++
  (if issueAdsText text = [] then [] else ["ADS.txt".toList]) ++
  (match issueMiscText text entries with
   | some _ => ["MISC.txt".toList]
   | none => [])

def issueRows (text : List Char) (entries : List TocEntry) :
    List ManifestRow :=
  ((issueOuts text entries).map TitleOut.rows).flatten ++
  (if (issueTocPair text).1 = [] then []
   else [⟨"TOC.txt".toList, "toc".toList, "TOC".toList, some [], []⟩]) ++
  (if issueAdsText text = [] then []
   else [⟨"ADS.txt".toList, "ads".toList, "ADS".toList, some [], []⟩]) ++
  (match issueMiscText text entries with
   | some _ => [⟨"MISC.txt".toList, "misc".toList, "MISC".toList, some [], []⟩]
   | none => [])

def extractIssue (text : List Char) (entries : List TocEntry) : IssueOut :=
  { frontMatter := issueFrontMatter text
    bodyOffset := issueBodyOffset text
    body := issueBody text
    adsText := issueAdsText text
    adsStart := (issueAds text).2.2
    bodyEnd := issueBodyEnd text
    strictBounds := issueStrictBounds text entries
    looseBounds := issueLooseBounds text entries
    jsonEntries := (issueOuts text entries).filterMap TitleOut.json
    tocText := (issueTocPair text).1
    remainingFm := (issueTocPair text).2
    noise := issueNoise text entries
    covered := issueCovered text entries
    gaps := issueGaps text entries
    miscText := issueMiscText text entries
    written := issueWritten text entries
    rows := issueRows text entries }

/-!
## Claims about `extract_issue`
-/

/-- The characters attributed by the five buckets of the conservation
claim: every strict extraction, every loose extraction, the TOC text,
the ads text and the miscellany text. -/
def bucketChars (out : IssueOut) : List Char :=
  ((out.jsonEntries.filterMap JsonEntry.strictMatch).map StratResult.content).flatten ++
  ((out.jsonEntries.filterMap JsonEntry.looseMatch).map StratResult.content).flatten ++
  out.tocText ++ out.adsText ++ out.miscText.getD []

/-- C1 as stated: when the Noise Stripper deleted nothing (so the
boilerplate escape clause is vacuous), every character of the issue text
is accounted for in exactly one bucket, i.e. the attributed characters
are a permutation of the issue text. -/
def conservationClaim (text : List Char) (entries : List TocEntry) : Prop :=
  (extractIssue text entries).noise = [] →
    (bucketChars (extractIssue text entries)).Perm text

def consText : List Char := "AB hello world ".toList

def consEntries : List TocEntry := [⟨"AB".toList, none, "article".toList⟩]

/-- C1 counterexample: on a one-entry issue with no noise at all, the
entry span is attributed to both the strict extraction and the loose
extraction (28 attributed characters), while the trailing space trimmed
from the span edge is attributed to nothing, so the 15-character text is
not conserved. -/
theorem conservation_counterexample : ¬ conservationClaim consText consEntries := by
  intro h
  have hp := h (by decide)
  exact absurd hp.length_eq (by decide)

lemma mem_dedupPairs_aux :
    ∀ (l acc : List (Nat × Nat)) (x : Nat × Nat),
      x ∈ l.foldl (fun acc y => if acc.contains y then acc else acc ++ [y]) acc →
      x ∈ acc ∨ x ∈ l := by
  intro l
  induction l with
  | nil => intro acc x h; exact Or.inl h
  | cons y ys ih =>
      intro acc x h
      rw [List.foldl_cons] at h
      rcases ih _ x h with h1 | h1
      · by_cases hc : acc.contains y
        · rw [if_pos hc] at h1; exact Or.inl h1
        · rw [if_neg hc] at h1
          rcases List.mem_append.mp h1 with h2 | h2
          · exact Or.inl h2
          · exact Or.inr (by simp at h2; simp [h2])
      · exact Or.inr (List.mem_cons_of_mem _ h1)

lemma mem_dedupPairs {x : Nat × Nat} {l : List (Nat × Nat)}
    (h : x ∈ dedupPairs l) : x ∈ l := by
  rcases mem_dedupPairs_aux l [] x h with h1 | h1
  · cases h1
  · exact h1

lemma mem_insertPairLex {x y : Nat × Nat} {l : List (Nat × Nat)}
    (h : x ∈ insertPairLex y l) : x = y ∨ x ∈ l := by
  induction l with
  | nil => simp [insertPairLex] at h; exact Or.inl h
  | cons z zs ih =>
      rw [insertPairLex] at h
      split at h
      · rcases List.mem_cons.mp h with h1 | h1
        · exact Or.inl h1
        · exact Or.inr h1
      · rcases List.mem_cons.mp h with h1 | h1
        · exact Or.inr (by simp [h1])
        · rcases ih h1 with h2 | h2
          · exact Or.inl h2
          · exact Or.inr (List.mem_cons_of_mem _ h2)

lemma mem_sortPairsLex {x : Nat × Nat} {l : List (Nat × Nat)}
    (h : x ∈ sortPairsLex l) : x ∈ l := by
  induction l with
  | nil => cases h
  | cons y ys ih =>
      rcases mem_insertPairLex h with h1 | h1
      · simp [h1]
      · exact List.mem_cons_of_mem _ (ih h1)

lemma mem_allIntervals {x : Nat × Nat} {l : List (Nat × Nat)}
    (h : x ∈ allIntervals l) : x ∈ l :=
  mem_dedupPairs (mem_sortPairsLex h)

lemma gapWalkAux_covers :
    ∀ (ivs : List (Nat × Nat)) (cursor bodyEnd i : Nat),
      cursor ≤ i → i < bodyEnd →
      (∃ iv ∈ ivs, iv.1 ≤ i ∧ i < iv.2) ∨
      (∃ g ∈ gapWalkAux cursor bodyEnd ivs, g.1 ≤ i ∧ i < g.2) := by
  intro ivs
  induction ivs with
  | nil =>
      intro cursor bodyEnd i h1 h2
      refine Or.inr ⟨(cursor, bodyEnd), ?_, h1, h2⟩
      rw [gapWalkAux, if_pos (by omega)]
      simp
  | cons iv rest ih =>
      intro cursor bodyEnd i h1 h2
      by_cases hi : i < iv.1
      · refine Or.inr ⟨(cursor, iv.1), ?_, h1, hi⟩
        rw [gapWalkAux, if_pos (by omega)]
        simp
      · by_cases hie : i < iv.2
        · exact Or.inl ⟨iv, by simp, by omega, hie⟩
        · rcases ih (max cursor iv.2) bodyEnd i (by omega) h2 with ⟨iv2, hm, hb⟩ | ⟨g, hm, hb⟩
          · exact Or.inl ⟨iv2, List.mem_cons_of_mem _ hm, hb⟩
          · refine Or.inr ⟨g, ?_, hb⟩
            rw [gapWalkAux]
            exact List.mem_append_right _ hm

/-- C1 amended: at the span level the body is fully covered: every
character position of the body (after the front matter and before the
ads cut) lies in at least one covered entry interval or in one of the
miscellany gap intervals.  (Conservation of the written texts fails as
stated: spans are attributed to both strategies at once and whitespace
trimmed at span edges is dropped, see `conservation_counterexample`.) -/
theorem body_span_coverage (text : List Char) (entries : List TocEntry)
    (i : Nat) (h1 : (extractIssue text entries).bodyOffset ≤ i)
    (h2 : i < (extractIssue text entries).bodyEnd) :
    (∃ iv ∈ (extractIssue text entries).covered, iv.1 ≤ i ∧ i < iv.2) ∨
    (∃ g ∈ (extractIssue text entries).gaps, g.1 ≤ i ∧ i < g.2) := by
  have hcase := gapWalkAux_covers (allIntervals (issueCovered text entries))
    (issueBodyOffset text) (issueBodyEnd text) i h1 h2
  rcases hcase with ⟨iv, hm, hb⟩ | ⟨g, hm, hb⟩
  · exact Or.inl ⟨iv, mem_allIntervals hm, hb⟩
  · exact Or.inr ⟨g, hm, hb⟩

/-- Witness for the amended C1 theorem at a concrete body position. -/
theorem body_span_coverage_witness :
    ((extractIssue consText consEntries).bodyOffset ≤ 5 ∧
      5 < (extractIssue consText consEntries).bodyEnd) ∧
    ((∃ iv ∈ (extractIssue consText consEntries).covered, iv.1 ≤ 5 ∧ 5 < iv.2) ∨
     (∃ g ∈ (extractIssue consText consEntries).gaps, g.1 ≤ 5 ∧ 5 < g.2)) :=
  ⟨⟨by decide, by decide⟩,
   body_span_coverage consText consEntries 5 (by decide) (by decide)⟩

/-- C5 as stated: the manifest has exactly one row per written file, and
every row names a written file. -/
def manifestMatchesWritten (out : IssueOut) : Prop :=
  (out.rows.all (fun r => out.written.contains r.file) &&
   out.written.all (fun f =>
     (out.rows.filter (fun r => r.file == f)).length == 1)) = true

def dupSpanText : List Char := "AB CD hello".toList

def dupSpanEntries : List TocEntry :=
  [⟨"AB".toList, none, "poem".toList⟩,
   ⟨"AB CD".toList, none, "article".toList⟩]

/-- C5 counterexample: when two titles match at the same position the
first entry receives a zero-width span, its cleaned text is empty and no
file is written, yet its manifest rows are still emitted: a manifest row
names a file that was never written. -/
theorem manifest_row_without_file :
    (∃ r ∈ (extractIssue dupSpanText dupSpanEntries).rows,
        r.file = "01_strict_AB.txt".toList) ∧
    ¬ ("01_strict_AB.txt".toList ∈ (extractIssue dupSpanText dupSpanEntries).written) ∧
    ¬ manifestMatchesWritten (extractIssue dupSpanText dupSpanEntries) := by
  refine ⟨by decide, by decide, ?_⟩
  unfold manifestMatchesWritten
  decide

/-!
### Uniqueness of manifest rows per written file

Entry filenames start with the `f"{idx:02d}"` prefix followed by an
underscore.  Distinct loop indices give distinct decimal prefixes, and
the prefix contains no underscore, so the filename determines the index;
within one index the strategy tag distinguishes the (at most two)
filenames.  The decimal-printing facts about `Nat.toDigits` needed for
this are proved here from its definition.
-/

/-- Numeric value of a decimal digit character. -/
def digitVal (c : Char) : Nat := c.toNat - 48

/-- Value of a big-endian list of decimal digit characters. -/
def decimalVal (l : List Char) : Nat :=
  l.foldl (fun a c => 10 * a + digitVal c) 0

lemma decimalVal_append_singleton (xs : List Char) (c : Char) :
    decimalVal (xs ++ [c]) = 10 * decimalVal xs + digitVal c := by
  rw [decimalVal, List.foldl_append]
  rfl

lemma decimalVal_cons_zero (xs : List Char) :
    decimalVal ('0' :: xs) = decimalVal xs := by
  rw [decimalVal, decimalVal, List.foldl_cons]
  congr 1

lemma digitVal_digitChar {m : Nat} (h : m < 10) :
    digitVal (Nat.digitChar m) = m := by
  interval_cases m <;> decide

lemma digitChar_ne_underscore (m : Nat) : ¬ Nat.digitChar m = '_' := by
  by_cases hm : m < 16
  · interval_cases m <;> decide
  · intro h
    have h0 : ¬ m = 0 := by omega
    have h1 : ¬ m = 1 := by omega
    have h2 : ¬ m = 2 := by omega
    have h3 : ¬ m = 3 := by omega
    have h4 : ¬ m = 4 := by omega
    have h5 : ¬ m = 5 := by omega
    have h6 : ¬ m = 6 := by omega
    have h7 : ¬ m = 7 := by omega
    have h8 : ¬ m = 8 := by omega
    have h9 : ¬ m = 9 := by omega
    have hA : ¬ m = 10 := by omega
    have hB : ¬ m = 11 := by omega
    have hC : ¬ m = 12 := by omega
    have hD : ¬ m = 13 := by omega
    have hE : ¬ m = 14 := by omega
    have hF : ¬ m = 15 := by omega
    rw [Nat.digitChar, if_neg h0, if_neg h1, if_neg h2, if_neg h3, if_neg h4,
      if_neg h5, if_neg h6, if_neg h7, if_neg h8, if_neg h9, if_neg hA,
      if_neg hB, if_neg hC, if_neg hD, if_neg hE, if_neg hF] at h
    exact absurd h (by decide)

lemma toDigitsCore_acc :
    ∀ (f n : Nat) (ds : List Char),
      Nat.toDigitsCore 10 f n ds = Nat.toDigitsCore 10 f n [] ++ ds := by
  intro f
  induction f with
  | zero => intro n ds; rfl
  | succ g ih =>
      intro n ds
      rw [Nat.toDigitsCore, Nat.toDigitsCore]
      by_cases h : n / 10 = 0
      · rw [if_pos h, if_pos h]
        rfl
      · rw [if_neg h, if_neg h,
          ih (n / 10) (Nat.digitChar (n % 10) :: ds),
          ih (n / 10) [Nat.digitChar (n % 10)], List.append_assoc]
        rfl

lemma decimalVal_toDigitsCore :
    ∀ (f n : Nat), n < f →
      decimalVal (Nat.toDigitsCore 10 f n []) = n := by
  intro f
  induction f with
  | zero => intro n h; omega
  | succ g ih =>
      intro n h
      rw [Nat.toDigitsCore]
      by_cases h10 : n / 10 = 0
      · rw [if_pos h10]
        have hn : n < 10 := by omega
        have hv : decimalVal [Nat.digitChar (n % 10)] = n % 10 := by
          rw [decimalVal, List.foldl_cons, List.foldl_nil,
            digitVal_digitChar (Nat.mod_lt _ (by norm_num))]
          omega
        rw [hv]
        omega
      · rw [if_neg h10, toDigitsCore_acc, decimalVal_append_singleton]
        have hlt : n / 10 < g := by
          have h1 : n / 10 < n := Nat.div_lt_self (by omega) (by norm_num)
          omega
        rw [ih _ hlt, digitVal_digitChar (Nat.mod_lt _ (by norm_num))]
        omega

lemma decimalVal_toDigits (n : Nat) :
    decimalVal (Nat.toDigits 10 n) = n :=
  decimalVal_toDigitsCore (n + 1) n (Nat.lt_succ_self n)

lemma toDigits_inj {a b : Nat}
    (h : Nat.toDigits 10 a = Nat.toDigits 10 b) : a = b := by
  have ha := decimalVal_toDigits a
  rw [h, decimalVal_toDigits b] at ha
  exact ha.symm

lemma pad2_inj {a b : Nat} (h : pad2 a = pad2 b) : a = b := by
  rw [pad2, pad2] at h
  by_cases ha : a < 10 <;> by_cases hb : b < 10
  · rw [if_pos ha, if_pos hb] at h
    exact toDigits_inj (List.cons_eq_cons.mp h).2
  · rw [if_pos ha, if_neg hb] at h
    have hv := congrArg decimalVal h
    rw [decimalVal_cons_zero, decimalVal_toDigits, decimalVal_toDigits] at hv
    omega
  · rw [if_neg ha, if_pos hb] at h
    have hv := congrArg decimalVal h
    rw [decimalVal_cons_zero, decimalVal_toDigits, decimalVal_toDigits] at hv
    omega
  · rw [if_neg ha, if_neg hb] at h
    exact toDigits_inj h

lemma underscore_not_mem_toDigitsCore :
    ∀ (f n : Nat) (ds : List Char), '_' ∉ ds →
      '_' ∉ Nat.toDigitsCore 10 f n ds := by
  intro f
  induction f with
  | zero => intro n ds hds; exact hds
  | succ g ih =>
      intro n ds hds
      rw [Nat.toDigitsCore]
      have hcons : '_' ∉ Nat.digitChar (n % 10) :: ds := by
        intro hmem
        rcases List.mem_cons.mp hmem with h1 | h1
        · exact digitChar_ne_underscore _ h1.symm
        · exact hds h1
      by_cases h10 : n / 10 = 0
      · rw [if_pos h10]
        exact hcons
      · rw [if_neg h10]
        exact ih _ _ hcons

lemma underscore_not_mem_pad2 (n : Nat) : '_' ∉ pad2 n := by
  rw [pad2]
  by_cases h : n < 10
  · rw [if_pos h]
    intro hmem
    rcases List.mem_cons.mp hmem with h1 | h1
    · exact absurd h1 (by decide)
    · exact underscore_not_mem_toDigitsCore _ _ _ (by simp) h1
  · rw [if_neg h]
    exact underscore_not_mem_toDigitsCore _ _ _ (by simp)

lemma append_underscore_split :
    ∀ (xs ys t1 t2 : List Char), '_' ∉ xs → '_' ∉ ys →
      xs ++ '_' :: t1 = ys ++ '_' :: t2 → xs = ys ∧ t1 = t2 := by
  intro xs
  induction xs with
  | nil =>
      intro ys t1 t2 _ hys h
      cases ys with
      | nil => simpa using h
      | cons y ys2 =>
          rw [List.nil_append, List.cons_append] at h
          have hy := (List.cons_eq_cons.mp h).1
          exact absurd (by simp [← hy]) hys
  | cons x xs2 ih =>
      intro ys t1 t2 hxs hys h
      cases ys with
      | nil =>
          rw [List.cons_append, List.nil_append] at h
          have hx := (List.cons_eq_cons.mp h).1
          exact absurd (by simp [hx]) hxs
      | cons y ys2 =>
          rw [List.cons_append, List.cons_append] at h
          obtain ⟨hxy, h2⟩ := List.cons_eq_cons.mp h
          have hxs2 : '_' ∉ xs2 := fun hm => hxs (List.mem_cons_of_mem _ hm)
          have hys2 : '_' ∉ ys2 := fun hm => hys (List.mem_cons_of_mem _ hm)
          obtain ⟨he, ht⟩ := ih ys2 t1 t2 hxs2 hys2 h2
          subst hxy
          exact ⟨by rw [he], ht⟩

lemma mkStratResult_file (text : List Char) (idx : Nat)
    (tag safe : List Char) (span : Nat × Nat) :
    (mkStratResult text idx tag safe span).1.file =
      pad2 idx ++ '_' :: (tag ++ '_' :: (safe ++ ".txt".toList)) := by
  rw [mkStratResult]
  dsimp only
  simp [List.cons_append, List.append_assoc]

lemma strict_loose_file_ne (text : List Char) (idx : Nat)
    (safe1 safe2 : List Char) (sp lp : Nat × Nat) :
    ¬ (mkStratResult text idx ("strict".toList) safe1 sp).1.file =
      (mkStratResult text idx ("loose".toList) safe2 lp).1.file := by
  rw [mkStratResult_file, mkStratResult_file]
  intro h
  have h2 := List.append_cancel_left h
  simp at h2

/-- Number of manifest rows naming a given file. -/
def countFile (f : List Char) (rows : List ManifestRow) : Nat :=
  (rows.filter (fun r => r.file == f)).length

lemma countFile_append (f : List Char) (a b : List ManifestRow) :
    countFile f (a ++ b) = countFile f a + countFile f b := by
  simp [countFile, List.filter_append]

lemma countFile_eq_zero {f : List Char} {rows : List ManifestRow}
    (h : ∀ r ∈ rows, ¬ r.file = f) : countFile f rows = 0 := by
  rw [countFile, List.length_eq_zero, List.filter_eq_nil_iff]
  intro r hr
  simpa using h r hr

lemma countFile_nil (f : List Char) : countFile f [] = 0 := rfl

lemma countFile_cons (f : List Char) (r : ManifestRow)
    (rows : List ManifestRow) :
    countFile f (r :: rows) =
      (if r.file = f then 1 else 0) + countFile f rows := by
  by_cases hr : r.file = f
  · simp [countFile, List.filter_cons, hr]
    omega
  · simp [countFile, List.filter_cons, hr]

lemma countFile_flatten_zero {f : List Char} :
    ∀ {L : List (List ManifestRow)}, (∀ rs ∈ L, countFile f rs = 0) →
      countFile f L.flatten = 0 := by
  intro L
  induction L with
  | nil => intro _; rfl
  | cons a rest ih =>
      intro h
      rw [List.flatten_cons, countFile_append, h a (by simp),
        ih (fun rs hrs => h rs (List.mem_cons_of_mem _ hrs))]

lemma processTitle_written_shape {text : List Char} {entries : List TocEntry}
    {sD lD : List (List Char × Nat × Nat)} {idx : Nat} {title f : List Char}
    (h : f ∈ (processTitle text entries sD lD idx title).written) :
    ∃ t, f = pad2 idx ++ '_' :: t := by
  cases hE : dlookupEntry title entries with
  | none => rw [processTitle, hE] at h; cases h
  | some ent =>
      cases hS : dlookupSpan title sD with
      | none =>
          cases hL : dlookupSpan title lD with
          | none => rw [processTitle, hE, hS, hL] at h; cases h
          | some lSpan =>
              rw [processTitle, hE, hS, hL] at h
              dsimp only at h
              split at h
              · cases h
              · exact ⟨_, (List.mem_singleton.mp h).trans (mkStratResult_file ..)⟩
      | some sSpan =>
          cases hL : dlookupSpan title lD with
          | none =>
              rw [processTitle, hE, hS, hL] at h
              dsimp only at h
              split at h
              · cases h
              · exact ⟨_, (List.mem_singleton.mp h).trans (mkStratResult_file ..)⟩
          | some lSpan =>
              rw [processTitle, hE, hS, hL] at h
              dsimp only at h
              rcases List.mem_append.mp h with h1 | h1
              · split at h1
                · cases h1
                · exact ⟨_, (List.mem_singleton.mp h1).trans (mkStratResult_file ..)⟩
              · split at h1
                · cases h1
                · exact ⟨_, (List.mem_singleton.mp h1).trans (mkStratResult_file ..)⟩

lemma processTitle_rows_shape {text : List Char} {entries : List TocEntry}
    {sD lD : List (List Char × Nat × Nat)} {idx : Nat} {title : List Char}
    {r : ManifestRow}
    (h : r ∈ (processTitle text entries sD lD idx title).rows) :
    ∃ t, r.file = pad2 idx ++ '_' :: t := by
  cases hE : dlookupEntry title entries with
  | none => rw [processTitle, hE] at h; cases h
  | some ent =>
      cases hS : dlookupSpan title sD with
      | none =>
          cases hL : dlookupSpan title lD with
          | none => rw [processTitle, hE, hS, hL] at h; cases h
          | some lSpan =>
              rw [processTitle, hE, hS, hL] at h
              dsimp only at h
              exact ⟨_, (congrArg ManifestRow.file
                (List.mem_singleton.mp h)).trans (mkStratResult_file text idx
                  ("loose".toList) (sanitizeFilename ent.title) lSpan)⟩
      | some sSpan =>
          cases hL : dlookupSpan title lD with
          | none =>
              rw [processTitle, hE, hS, hL] at h
              dsimp only at h
              exact ⟨_, (congrArg ManifestRow.file
                (List.mem_singleton.mp h)).trans (mkStratResult_file text idx
                  ("strict".toList) (sanitizeFilename ent.title) sSpan)⟩
          | some lSpan =>
              rw [processTitle, hE, hS, hL] at h
              dsimp only at h
              rcases List.mem_cons.mp h with h1 | h1
              · exact ⟨_, (congrArg ManifestRow.file h1).trans
                  (mkStratResult_file text idx ("strict".toList)
                    (sanitizeFilename ent.title) sSpan)⟩
              · exact ⟨_, (congrArg ManifestRow.file
                  (List.mem_singleton.mp h1)).trans (mkStratResult_file text idx
                    ("loose".toList) (sanitizeFilename ent.title) lSpan)⟩

lemma processTitle_countFile_one {text : List Char} {entries : List TocEntry}
    {sD lD : List (List Char × Nat × Nat)} {idx : Nat} {title f : List Char}
    (h : f ∈ (processTitle text entries sD lD idx title).written) :
    countFile f (processTitle text entries sD lD idx title).rows = 1 := by
  cases hE : dlookupEntry title entries with
  | none => rw [processTitle, hE] at h; cases h
  | some ent =>
      cases hS : dlookupSpan title sD with
      | none =>
          cases hL : dlookupSpan title lD with
          | none => rw [processTitle, hE, hS, hL] at h; cases h
          | some lSpan =>
              rw [processTitle, hE, hS, hL] at h ⊢
              dsimp only at h ⊢
              split at h
              · cases h
              · have hf := List.mem_singleton.mp h
                subst hf
                rw [countFile_cons, countFile_nil, if_pos rfl]
      | some sSpan =>
          cases hL : dlookupSpan title lD with
          | none =>
              rw [processTitle, hE, hS, hL] at h ⊢
              dsimp only at h ⊢
              split at h
              · cases h
              · have hf := List.mem_singleton.mp h
                subst hf
                rw [countFile_cons, countFile_nil, if_pos rfl]
          | some lSpan =>
              rw [processTitle, hE, hS, hL] at h ⊢
              dsimp only at h ⊢
              have hne := strict_loose_file_ne text idx
                (sanitizeFilename ent.title) (sanitizeFilename ent.title) sSpan lSpan
              rcases List.mem_append.mp h with h1 | h1
              · split at h1
                · cases h1
                · have hf := List.mem_singleton.mp h1
                  subst hf
                  rw [countFile_cons, countFile_cons, countFile_nil,
                    if_pos rfl, if_neg (fun he => hne he.symm)]
              · split at h1
                · cases h1
                · have hf := List.mem_singleton.mp h1
                  subst hf
                  rw [countFile_cons, countFile_cons, countFile_nil,
                    if_neg (fun he => hne he), if_pos rfl]

lemma processTitle_rows_other_zero {text : List Char} {entries : List TocEntry}
    {sD lD : List (List Char × Nat × Nat)} {idx1 idx2 : Nat}
    {title1 title2 f : List Char}
    (hf : f ∈ (processTitle text entries sD lD idx1 title1).written)
    (hne : ¬ idx2 = idx1) :
    countFile f (processTitle text entries sD lD idx2 title2).rows = 0 := by
  apply countFile_eq_zero
  intro r hr heq
  obtain ⟨t1, hft⟩ := processTitle_written_shape hf
  obtain ⟨t2, hrt⟩ := processTitle_rows_shape hr
  rw [hrt, hft] at heq
  obtain ⟨hp, _⟩ := append_underscore_split _ _ _ _
    (underscore_not_mem_pad2 idx2) (underscore_not_mem_pad2 idx1) heq
  exact hne (pad2_inj hp)

lemma enumerate1_pairwise (l : List (List Char)) :
    List.Pairwise (fun a b : Nat × List Char => ¬ a.1 = b.1) (enumerate1 l) := by
  rw [enumerate1, List.pairwise_map]
  have h1 : (l.enum.map Prod.fst).Nodup := by
    rw [List.enum_map_fst]
    exact List.nodup_range _
  have h2 := List.pairwise_map.mp h1
  exact h2.imp (fun hab => by omega)

lemma countFile_entryRows {text : List Char} {entries : List TocEntry}
    {sD lD : List (List Char × Nat × Nat)} {f : List Char} :
    ∀ (ps : List (Nat × List Char)),
      List.Pairwise (fun a b : Nat × List Char => ¬ a.1 = b.1) ps →
      (∃ p ∈ ps, f ∈ (processTitle text entries sD lD p.1 p.2).written) →
      countFile f
        ((ps.map (fun p => (processTitle text entries sD lD p.1 p.2).rows)).flatten) = 1 := by
  intro ps
  induction ps with
  | nil => rintro _ ⟨p, hp, _⟩; cases hp
  | cons p rest ih =>
      intro hpw hex
      obtain ⟨hphead, hprest⟩ := List.pairwise_cons.mp hpw
      rw [List.map_cons, List.flatten_cons, countFile_append]
      obtain ⟨q, hq, hfq⟩ := hex
      rcases List.mem_cons.mp hq with rfl | hqrest
      · rw [processTitle_countFile_one hfq, countFile_flatten_zero]
        intro rs hrs
        rw [List.mem_map] at hrs
        obtain ⟨p2, hp2, rfl⟩ := hrs
        exact processTitle_rows_other_zero hfq
          (fun he => hphead p2 hp2 he.symm)
      · rw [ih hprest ⟨q, hqrest, hfq⟩,
          processTitle_rows_other_zero hfq (hphead q hqrest)]

lemma underscore_mem_of_written {text : List Char} {entries : List TocEntry}
    {sD lD : List (List Char × Nat × Nat)} {idx : Nat} {title f : List Char}
    (h : f ∈ (processTitle text entries sD lD idx title).written) : '_' ∈ f := by
  obtain ⟨t, rfl⟩ := processTitle_written_shape h
  exact List.mem_append_right _ (List.mem_cons_self _ _)

lemma countFile_rows_no_underscore {text : List Char} {entries : List TocEntry}
    {f : List Char} (hf : '_' ∉ f) :
    countFile f
      (((issueOuts text entries).map TitleOut.rows).flatten) = 0 := by
  apply countFile_flatten_zero
  intro rs hrs
  rw [List.mem_map] at hrs
  obtain ⟨out, hout, rfl⟩ := hrs
  rw [issueOuts, List.mem_map] at hout
  obtain ⟨p, _, rfl⟩ := hout
  apply countFile_eq_zero
  intro r hr heq
  obtain ⟨t, hrt⟩ := processTitle_rows_shape hr
  rw [heq] at hrt
  exact hf (by
    rw [hrt]
    exact List.mem_append_right _ (List.mem_cons_self _ _))

/-- C5 amended: every file actually written has exactly one manifest row
naming it.  (The converse direction of the claim fails: rows are emitted
for every matched strategy, even when the cleaned text is empty and the
file write is skipped, see `manifest_row_without_file`.) -/
theorem written_file_unique_row (text : List Char) (entries : List TocEntry)
    (f : List Char) (h : f ∈ (extractIssue text entries).written) :
    (((extractIssue text entries).rows).filter
        (fun r => r.file == f)).length = 1 := by
  have h2 : f ∈ issueWritten text entries := h
  show countFile f (issueRows text entries) = 1
  rw [issueWritten] at h2
  rw [issueRows, countFile_append, countFile_append, countFile_append]
  rcases List.mem_append.mp h2 with h3 | hmw
  rcases List.mem_append.mp h3 with h4 | haw
  rcases List.mem_append.mp h4 with hew | htw
  · -- an entry file: one row among the entry rows, none elsewhere
    rw [List.mem_flatten] at hew
    obtain ⟨ws, hws, hfw⟩ := hew
    rw [List.mem_map] at hws
    obtain ⟨out, hout, rfl⟩ := hws
    rw [issueOuts, List.mem_map] at hout
    obtain ⟨p, hp, rfl⟩ := hout
    have hund : '_' ∈ f := underscore_mem_of_written hfw
    have hER : countFile f
        (((issueOuts text entries).map TitleOut.rows).flatten) = 1 := by
      rw [issueOuts, List.map_map]
      exact countFile_entryRows _ (enumerate1_pairwise _) ⟨p, hp, hfw⟩
    have hTR : countFile f (if (issueTocPair text).1 = [] then []
        else [(⟨"TOC.txt".toList, "toc".toList, "TOC".toList, some [], []⟩ :
          ManifestRow)]) = 0 := by
      split
      · rfl
      · apply countFile_eq_zero
        intro r hr heq
        rw [List.mem_singleton.mp hr] at heq
        rw [← heq] at hund
        exact absurd hund (by decide)
    have hAR : countFile f (if issueAdsText text = [] then []
        else [(⟨"ADS.txt".toList, "ads".toList, "ADS".toList, some [], []⟩ :
          ManifestRow)]) = 0 := by
      split
      · rfl
      · apply countFile_eq_zero
        intro r hr heq
        rw [List.mem_singleton.mp hr] at heq
        rw [← heq] at hund
        exact absurd hund (by decide)
    have hMR : countFile f (match issueMiscText text entries with
        | some _ => [(⟨"MISC.txt".toList, "misc".toList, "MISC".toList,
            some [], []⟩ : ManifestRow)]
        | none => []) = 0 := by
      rcases issueMiscText text entries with _ | m
      · rfl
      · apply countFile_eq_zero
        intro r hr heq
        rw [List.mem_singleton.mp hr] at heq
        rw [← heq] at hund
        exact absurd hund (by decide)
    rw [hER, hTR, hAR, hMR]
  · -- TOC.txt
    by_cases hg : (issueTocPair text).1 = []
    · rw [if_pos hg] at htw; cases htw
    · rw [if_neg hg] at htw
      have hf := List.mem_singleton.mp htw
      subst hf
      rw [countFile_rows_no_underscore (by decide), if_neg hg,
        countFile_cons, countFile_nil, if_pos rfl]
      have hAR : countFile ("TOC.txt".toList) (if issueAdsText text = [] then []
          else [(⟨"ADS.txt".toList, "ads".toList, "ADS".toList, some [], []⟩ :
            ManifestRow)]) = 0 := by
        split
        · rfl
        · rw [countFile_cons, countFile_nil, if_neg (by decide)]
      have hMR : countFile ("TOC.txt".toList)
          (match issueMiscText text entries with
          | some _ => [(⟨"MISC.txt".toList, "misc".toList, "MISC".toList,
              some [], []⟩ : ManifestRow)]
          | none => []) = 0 := by
        rcases issueMiscText text entries with _ | m
        · rfl
        · rw [countFile_cons, countFile_nil, if_neg (by decide)]
      rw [hAR, hMR]
  · -- ADS.txt
    by_cases hg : issueAdsText text = []
    · rw [if_pos hg] at haw; cases haw
    · rw [if_neg hg] at haw
      have hf := List.mem_singleton.mp haw
      subst hf
      rw [countFile_rows_no_underscore (by decide), if_neg hg,
        countFile_cons, countFile_nil, if_pos rfl]
      have hTR : countFile ("ADS.txt".toList) (if (issueTocPair text).1 = []
          then []
          else [(⟨"TOC.txt".toList, "toc".toList, "TOC".toList, some [], []⟩ :
            ManifestRow)]) = 0 := by
        split
        · rfl
        · rw [countFile_cons, countFile_nil, if_neg (by decide)]
      have hMR : countFile ("ADS.txt".toList)
          (match issueMiscText text entries with
          | some _ => [(⟨"MISC.txt".toList, "misc".toList, "MISC".toList,
              some [], []⟩ : ManifestRow)]
          | none => []) = 0 := by
        rcases issueMiscText text entries with _ | m
        · rfl
        · rw [countFile_cons, countFile_nil, if_neg (by decide)]
      rw [hTR, hMR]
  · -- MISC.txt
    rcases hmt : issueMiscText text entries with _ | m
    · rw [hmt] at hmw
      simp at hmw
    · rw [hmt] at hmw
      have hf : f = "MISC.txt".toList := by simpa using hmw
      subst hf
      rw [countFile_rows_no_underscore (by decide),
        countFile_cons, countFile_nil, if_pos rfl]
      have hTR : countFile ("MISC.txt".toList) (if (issueTocPair text).1 = []
          then []
          else [(⟨"TOC.txt".toList, "toc".toList, "TOC".toList, some [], []⟩ :
            ManifestRow)]) = 0 := by
        split
        · rfl
        · rw [countFile_cons, countFile_nil, if_neg (by decide)]
      have hAR : countFile ("MISC.txt".toList) (if issueAdsText text = []
          then []
          else [(⟨"ADS.txt".toList, "ads".toList, "ADS".toList, some [], []⟩ :
            ManifestRow)]) = 0 := by
        split
        · rfl
        · rw [countFile_cons, countFile_nil, if_neg (by decide)]
      rw [hTR, hAR]

/-- Witness for the amended C5 theorem at a concrete written file. -/
theorem written_file_unique_row_witness :
    ("01_strict_AB.txt".toList ∈ (extractIssue consText consEntries).written) ∧
    (((extractIssue consText consEntries).rows).filter
        (fun r => r.file == "01_strict_AB.txt".toList)).length = 1 :=
  ⟨by decide, written_file_unique_row consText consEntries _ (by decide)⟩

lemma processTitle_json_identical {text : List Char} {entries : List TocEntry}
    {sD lD : List (List Char × Nat × Nat)} {idx : Nat} {title : List Char}
    {j : JsonEntry}
    (h : (processTitle text entries sD lD idx title).json = some j) :
    (j.identical = true ↔ ∃ s l, j.strictMatch = some s ∧
      j.looseMatch = some l ∧ s.content = l.content) := by
  cases hE : dlookupEntry title entries with
  | none => rw [processTitle, hE] at h; cases h
  | some ent =>
      cases hS : dlookupSpan title sD with
      | none =>
          cases hL : dlookupSpan title lD with
          | none => rw [processTitle, hE, hS, hL] at h; cases h
          | some lSpan =>
              rw [processTitle, hE, hS, hL] at h
              dsimp only at h
              cases h
              constructor
              · intro hid; cases hid
              · rintro ⟨s, l, hs, _, _⟩; cases hs
      | some sSpan =>
          cases hL : dlookupSpan title lD with
          | none =>
              rw [processTitle, hE, hS, hL] at h
              dsimp only at h
              cases h
              constructor
              · intro hid; cases hid
              · rintro ⟨s, l, _, hl, _⟩; cases hl
          | some lSpan =>
              rw [processTitle, hE, hS, hL] at h
              dsimp only at h
              cases h
              constructor
              · intro hid
                refine ⟨_, _, rfl, rfl, ?_⟩
                exact eq_of_beq hid
              · rintro ⟨s, l, hs, hl, heq⟩
                cases hs; cases hl
                simpa using heq

/-- C6: for every record emitted by the Dual-Strategy Reconciler, the
`strict_loose_identical` flag is true exactly when both strategies
produced a match and their cleaned texts are identical. -/
theorem identical_flag_iff (text : List Char) (entries : List TocEntry)
    (j : JsonEntry) (hj : j ∈ (extractIssue text entries).jsonEntries) :
    (j.identical = true ↔ ∃ s l, j.strictMatch = some s ∧
      j.looseMatch = some l ∧ s.content = l.content) := by
  have hj2 : j ∈ (issueOuts text entries).filterMap TitleOut.json := hj
  rw [List.mem_filterMap] at hj2
  obtain ⟨out, hout, hsome⟩ := hj2
  rw [issueOuts, List.mem_map] at hout
  obtain ⟨p, _, rfl⟩ := hout
  exact processTitle_json_identical hsome

/-- The concrete reconciled record of `consText`, for the C6 witness. -/
def consJsonEntry : JsonEntry :=
  ⟨1, "AB".toList, none, "article".toList, true,
   some ⟨"01_strict_AB.txt".toList, 0, 14, "AB hello world".toList⟩,
   some ⟨"01_loose_AB.txt".toList, 0, 14, "AB hello world".toList⟩⟩

/-- Witness for C6 at a concrete reconciled record. -/
theorem identical_flag_iff_witness :
    (consJsonEntry ∈ (extractIssue consText consEntries).jsonEntries) ∧
    (consJsonEntry.identical = true ↔ ∃ s l,
      consJsonEntry.strictMatch = some s ∧ consJsonEntry.looseMatch = some l ∧
      s.content = l.content) :=
  ⟨by decide, identical_flag_iff consText consEntries consJsonEntry (by decide)⟩

end RSExtract
